import Mathlib

/-!
# Network simulation: a shallow embedding of `src/network.cpp`

The C++ class `Network` owns a vector of node values, a node count and a
`std::multimap` of directed link pairs.  Every member function of
`network.cpp` is translated below into a pure function on an explicit
state record.

Conventions of the embedding

* `size_t` quantities are natural numbers.  No `size_t` computation of the
  source can exceed the address space (they count stored elements), so no
  reduction modulo `2^64` is applied to them.
* `int` quantities are integers; every conversion `size_t → int` of the
  source goes through `to_int` (32-bit two's complement), the one mixed
  `int`/`size_t` subtraction goes through `to_size_t`, and the one `int`
  subtraction of the source is checked against the `int` range.
* An exception thrown by the source is the error `Fault.out_of_range`.
* An access outside the bounds of a `std::vector` (undefined behaviour in
  C++) is the error `Fault.bad_index`; the execution stops there.
* The global generator `RNG` is an explicit state threaded through the
  functions that draw from it.
-/

namespace NetworkSim

/-! ## Errors -/

/-- The ways in which a member function can fail to return normally. -/
inductive Fault where
  /-- The exception `std::out_of_range(message)` thrown by the source. -/
  | out_of_range (message : String)
  /-- An access `v[i]` (or `back`, `pop_back`) outside the bounds of a vector. -/
  | bad_index
  /-- A signed `int` operation whose result is not representable. -/
  | int_overflow
  deriving DecidableEq, Repr

/-- The text built by the four accessors before they throw. -/
def out_of_range_message (n : Nat) : String :=
  "the node " ++ toString n ++ " you try to access does not exist."

/-! ## Machine integers -/

/-- Smallest value of the type `int`. -/
def INT_MIN : Int := -2147483648

/-- Largest value of the type `int`. -/
def INT_MAX : Int := 2147483647

/-- Conversion of a `size_t` value to the 32-bit type `int`: the
representative of `n` modulo `2^32` that lies between `INT_MIN` and
`INT_MAX`. -/
def to_int (n : Nat) : Int :=
  if n % 4294967296 < 2147483648 then ((n % 4294967296 : Nat) : Int)
  else ((n % 4294967296 : Nat) : Int) - 4294967296

/-- Conversion of an integer value to the 64-bit type `size_t`. -/
def to_size_t (x : Int) : Nat := (x % 18446744073709551616).toNat

/-! ## The link container -/

/-- Insertion of the pair `(k, v)` in a key-ordered list of pairs, after
every pair whose key is not greater than `k` (the position chosen by
`std::multimap::insert`). -/
def insert_pair (k v : Nat) : List (Nat × Nat) → List (Nat × Nat)
  | [] => [(k, v)]
  | p :: ps => if k < p.1 then (k, v) :: p :: ps else p :: insert_pair k v ps

/-- Modelled from the spec: the declaration of the member `links` (in
`network.h`) is missing.  The spec describes it as a multiset of ordered
pairs of node indices held in a sorted associative structure keyed by the
first element, and the source uses it through `insert`, `clear`, `count`,
`lower_bound` and `upper_bound`: a `std::multimap<size_t, size_t>`.  It is
the list of its pairs in iteration order, which is ordered by key. -/
structure LinkMap where
  /-- The stored pairs, in iteration order. -/
  entries : List (Nat × Nat)
  /-- Iteration visits the keys in non-decreasing order. -/
  sorted : entries.Pairwise (fun p q => p.1 ≤ q.1)

namespace LinkMap

/-- The container after `clear()`. -/
def empty : LinkMap := ⟨[], List.Pairwise.nil⟩

/-- The call `links.insert(std::make_pair(k, v))`. -/
def insert (m : LinkMap) (k v : Nat) : LinkMap where
  entries := insert_pair k v m.entries
  sorted := by
    have mem : ∀ (l : List (Nat × Nat)) (q : Nat × Nat),
        q ∈ insert_pair k v l → q = (k, v) ∨ q ∈ l := by
      intro l
      induction l with
      | nil => intro q hq; simpa [insert_pair] using hq
      | cons r rs ih =>
        intro q hq
        unfold insert_pair at hq
        split at hq
        · simpa using hq
        · rcases List.mem_cons.1 hq with h1 | h1
          · exact Or.inr (List.mem_cons.2 (Or.inl h1))
          · exact (ih q h1).imp id (fun h2 => List.mem_cons.2 (Or.inr h2))
    have key : ∀ l : List (Nat × Nat), l.Pairwise (fun p q => p.1 ≤ q.1) →
        (insert_pair k v l).Pairwise (fun p q => p.1 ≤ q.1) := by
      intro l
      induction l with
      | nil => intro _; simp [insert_pair]
      | cons p ps ih =>
        intro h
        rw [List.pairwise_cons] at h
        unfold insert_pair
        split
        · rename_i hk
          refine List.pairwise_cons.2 ⟨?_, List.pairwise_cons.2 h⟩
          intro q hq
          rcases List.mem_cons.1 hq with rfl | hq
          · exact Nat.le_of_lt hk
          · exact Nat.le_trans (Nat.le_of_lt hk) (h.1 q hq)
        · rename_i hk
          refine List.pairwise_cons.2 ⟨?_, ih h.2⟩
          intro q hq
          rcases mem ps q hq with rfl | hq
          · exact Nat.le_of_not_lt hk
          · exact h.1 q hq
    exact key m.entries m.sorted

/-- The iterator range `[lower_bound(n), upper_bound(n))`: skip the pairs
whose key is smaller than `n`, then take the pairs whose key is not greater
than `n`. -/
def equal_range (m : LinkMap) (n : Nat) : List (Nat × Nat) :=
  (m.entries.dropWhile (fun p => decide (p.1 < n))).takeWhile (fun p => decide (p.1 ≤ n))

/-- The call `links.count(n)`. -/
def count (m : LinkMap) (n : Nat) : Nat := (m.equal_range n).length

end LinkMap

/-! ## The generator -/

/-- Modelled from the spec: `random.h` is missing.  Section 6 of the spec
gives the generator three operations, `normal(mean, stddev)`,
`poisson(rate)` and `uniform_int(low, high)`.  Each one takes the state of
the generator and returns its output with the next state.  No constraint is
put on the outputs. -/
structure RandomNumbers (σ V : Type) where
  /-- One sample of a normal distribution. -/
  normal : V → V → σ → V × σ
  /-- One sample of a Poisson distribution, of type `int`. -/
  poisson : V → σ → Int × σ
  /-- One sample of a uniform distribution over an integer range. -/
  uniform_int : Int → Int → σ → Int × σ

/-! ## The network -/

/-- The data members of the class `Network`. -/
structure Network (V : Type) where
  /-- The member `values`. -/
  values : List V
  /-- The member `number_of_nodes`. -/
  number_of_nodes : Nat
  /-- The member `links`. -/
  links : LinkMap

namespace Network

variable {V σ : Type}

/-- The member function `Network::size`. -/
def size (net : Network V) : Nat := net.number_of_nodes

/-- The member function `Network::degree`. -/
def degree (net : Network V) (n : Nat) : Except Fault Nat :=
  if n < net.size then .ok (net.links.count n)
  else .error (.out_of_range (out_of_range_message n))

/-- The member function `Network::value`. -/
def value (net : Network V) (n : Nat) : Except Fault V :=
  if n < net.size then
    match net.values[n]? with
    | some v => .ok v
    | none => .error .bad_index
  else .error (.out_of_range (out_of_range_message n))

/-- The member function `Network::neighbors`. -/
def neighbors (net : Network V) (n : Nat) : Except Fault (List Nat) :=
  if n < net.size then .ok ((net.links.equal_range n).map Prod.snd)
  else .error (.out_of_range (out_of_range_message n))

/-- The loop of `Network::possible_neighbors` over the nodes still to scan:
`neighbor` is the working copy of the neighbour list and `possible_neighbor`
the list built so far. -/
def possible_neighbors_loop (n : Nat) :
    List Nat → List Nat → List Nat → List Nat
  | [], _, possible_neighbor => possible_neighbor
  | node :: rest, neighbor, possible_neighbor =>
    if node ≠ n then
      if node ∈ neighbor then
        possible_neighbors_loop n rest (neighbor.erase node) possible_neighbor
      else
        possible_neighbors_loop n rest neighbor (possible_neighbor ++ [node])
    else possible_neighbors_loop n rest neighbor possible_neighbor

/-- The member function `Network::possible_neighbors`. -/
def possible_neighbors (net : Network V) (n : Nat) : Except Fault (List Nat) :=
  if n < net.size then
    match net.neighbors n with
    | .error f => .error f
    | .ok neighbor => .ok (possible_neighbors_loop n (List.range net.size) neighbor [])
  else .error (.out_of_range (out_of_range_message n))

/-- The member function `Network::add_link`: the returned boolean and the
network after the call. -/
def add_link (net : Network V) (a b : Nat) : Except Fault (Bool × Network V) :=
  if a < net.size ∧ b < net.size then
    if a = b then .ok (false, net)
    else
      match net.neighbors a with
      | .error f => .error f
      | .ok neighbor_a =>
        if b ∉ neighbor_a then
          .ok (true, { net with links := (net.links.insert a b).insert b a })
        else .ok (false, net)
  else .ok (false, net)

/-- The loop of `Network::resize`: `n` draws still to make, each pushed at
the back of `values`. -/
def resize_loop [Zero V] [One V] (rng : RandomNumbers σ V) :
    Nat → List V → σ → List V × σ
  | 0, values, g => (values, g)
  | r + 1, values, g =>
    let x := rng.normal 0 1 g
    resize_loop rng r (values ++ [x.1]) x.2

/-- The member function `Network::resize`: the network and the generator
after the call. -/
def resize [Zero V] [One V] (rng : RandomNumbers σ V) (net : Network V) (n : Nat) (g : σ) :
    Network V × σ :=
  let r := resize_loop rng n [] g
  ({ net with values := r.1, number_of_nodes := n }, r.2)

/-- The loop of `Network::set_values`: `r` iterations still to make, the
next one for index `node`. -/
def set_values_loop (new_values : List V) : Nat → Nat → List V → Except Fault (List V)
  | 0, _, values => .ok values
  | r + 1, node, values =>
    match new_values[node]? with
    | none => .error .bad_index
    | some x =>
      if node < values.length then set_values_loop new_values r (node + 1) (values.set node x)
      else .error .bad_index

/-- The member function `Network::set_values`: the returned count and the
network after the call. -/
def set_values (net : Network V) (new_values : List V) : Except Fault (Nat × Network V) :=
  let new_values_size := min new_values.length net.size
  match set_values_loop new_values new_values_size 0 net.values with
  | .error f => .error f
  | .ok values => .ok (new_values_size, { net with values := values })

/-- The function `reverse_comparator`. -/
def reverse_comparator [LT V] [DecidableRel (fun a b : V => a < b)] (a b : V) : Bool :=
  decide (a > b)

/-- Insertion of `x` in a list ordered by `comp`, before the first element
that `comp` does not put before `x`. -/
def sort_insert (comp : V → V → Bool) (x : V) : List V → List V
  | [] => [x]
  | y :: ys => if comp y x then y :: sort_insert comp x ys else x :: y :: ys

/-- Modelled from the spec: `std::sort(first, last, comp)` belongs to the
standard library and is not in the source.  Its contract is that the range
is permuted so that no element is put by `comp` before an element that
precedes it.  Over a linear order with `comp` the strict order, one list
only meets this contract, so that the sorting method does not matter;
insertion sort is taken. -/
def std_sort (comp : V → V → Bool) : List V → List V
  | [] => []
  | x :: xs => sort_insert comp x (std_sort comp xs)

/-- The member function `Network::sorted_values` (a `const` function: it
returns a vector and has no access to change the network). -/
def sorted_values [LT V] [DecidableRel (fun a b : V => a < b)] (net : Network V) : List V :=
  std_sort reverse_comparator net.values

/-- The value of `number_of_links` computed by `Network::random_connect`
from the Poisson draw `k` and the degree of the node (both of type `int`). -/
def number_of_links (net : Network V) (k degree_node : Int) : Int :=
  min k (to_int net.size - degree_node)

/-- The two statements `std::swap(v[i], v.back()); v.pop_back();` for an
index `i` inside the vector. -/
def swap_pop (v : List Nat) (i : Nat) : List Nat :=
  match v.getLast? with
  | none => v
  | some last => (v.set i last).dropLast

/-- The inner loop of `Network::random_connect` for the node `node`:
`r` iterations still to make, `links_created` already made,
`possible_neighbor` the remaining pool, `original_size` the `int` holding the
initial size of the pool.  The bound handed to `uniform_int` is
`(original_size - 1) - links_created`, an `int` subtraction followed by a
`size_t` subtraction, converted to `int`.  Returns the outcome with the
network and the generator reached. -/
def random_connect_node (rng : RandomNumbers σ V) (node : Nat) (original_size : Int) :
    Nat → Nat → List Nat → Network V → σ → Except Fault Unit × Network V × σ
  | 0, _, _, net, g => (.ok (), net, g)
  | r + 1, links_created, possible_neighbor, net, g =>
    if original_size - 1 < INT_MIN then (.error .int_overflow, net, g)
    else
      let u := rng.uniform_int 0
        (to_int (to_size_t ((original_size - 1) - links_created))) g
      let selected_possible_neighbor_index := u.1
      if selected_possible_neighbor_index < 0 then (.error .bad_index, net, u.2)
      else
        match possible_neighbor[selected_possible_neighbor_index.toNat]? with
        | none => (.error .bad_index, net, u.2)
        | some candidate =>
          match net.add_link node candidate with
          | .error f => (.error f, net, u.2)
          | .ok added =>
            random_connect_node rng node original_size r (links_created + 1)
              (swap_pop possible_neighbor selected_possible_neighbor_index.toNat) added.2 u.2

/-- The body of the outer loop of `Network::random_connect` for the node
`node`: the amount added to `total_links` (or the fault that stopped the
execution), with the network and the generator reached. -/
def random_connect_visit (rng : RandomNumbers σ V) (mean_deg : V) (node : Nat)
    (net : Network V) (g : σ) : Except Fault Nat × Network V × σ :=
  match net.degree node with
  | .error f => (.error f, net, g)
  | .ok d =>
    let degree_node := to_int d
    let p := rng.poisson mean_deg g
    if to_int net.size - degree_node < INT_MIN ∨ INT_MAX < to_int net.size - degree_node then
      (.error .int_overflow, net, p.2)
    else
      let number_of_links := net.number_of_links p.1 degree_node
      if number_of_links > 0 then
        match net.possible_neighbors node with
        | .error f => (.error f, net, p.2)
        | .ok possible_neighbor =>
          let s := random_connect_node rng node (to_int possible_neighbor.length)
            number_of_links.toNat 0 possible_neighbor net p.2
          match s.1 with
          | .error f => (.error f, s.2.1, s.2.2)
          | .ok _ => (.ok number_of_links.toNat, s.2.1, s.2.2)
      else (.ok 0, net, p.2)

/-- The outer loop of `Network::random_connect`: `r` nodes still to visit,
the next one being `node`.  (The loop runs while `node < size()`, and
`size()` is not changed by its body.) -/
def random_connect_loop (rng : RandomNumbers σ V) (mean_deg : V) :
    Nat → Nat → Nat → Network V → σ → Except Fault Nat × Network V × σ
  | 0, _, total_links, net, g => (.ok total_links, net, g)
  | r + 1, node, total_links, net, g =>
    let s := random_connect_visit rng mean_deg node net g
    match s.1 with
    | .error f => (.error f, s.2.1, s.2.2)
    | .ok added => random_connect_loop rng mean_deg r (node + 1) (total_links + added) s.2.1 s.2.2

/-- The member function `Network::random_connect`: the returned total (or
the fault that stopped the execution), with the network and the generator
reached. -/
def random_connect (rng : RandomNumbers σ V) (net : Network V) (mean_deg : V) (g : σ) :
    Except Fault Nat × Network V × σ :=
  random_connect_loop rng mean_deg net.size 0 0 { net with links := LinkMap.empty } g

end Network

/-! ## Properties and reference definitions -/

open Network

variable {V σ : Type}

/-- The link invariant of a network: the relation is symmetric, has no
self-loop pair, stores no pair twice, and mentions only node ids below the
node count. -/
def LinkInv (net : Network V) : Prop :=
  (∀ p ∈ net.links.entries, (p.2, p.1) ∈ net.links.entries) ∧
  (∀ p ∈ net.links.entries, p.1 ≠ p.2) ∧
  net.links.entries.Nodup ∧
  (∀ p ∈ net.links.entries, p.1 < net.size ∧ p.2 < net.size)

instance (net : Network V) : Decidable (LinkInv net) := by
  unfold LinkInv
  infer_instance

/-- The first `n` outputs of `normal(0, 1)` from the generator state `g`,
first draw first. -/
def normal_draws [Zero V] [One V] (rng : RandomNumbers σ V) : Nat → σ → List V
  | 0, _ => []
  | n + 1, g => (rng.normal 0 1 g).1 :: normal_draws rng n (rng.normal 0 1 g).2

/-- The calls `add_link(node, candidate)` made by the inner loop of
`Network::random_connect` (same arguments as `random_connect_node`), in the
order in which they are made: the candidate and the value returned. -/
def random_connect_node_log (rng : RandomNumbers σ V) (node : Nat) (original_size : Int) :
    Nat → Nat → List Nat → Network V → σ → List (Nat × Bool)
  | 0, _, _, _, _ => []
  | r + 1, links_created, possible_neighbor, net, g =>
    if original_size - 1 < INT_MIN then []
    else
      let u := rng.uniform_int 0
        (to_int (to_size_t ((original_size - 1) - links_created))) g
      if u.1 < 0 then []
      else
        match possible_neighbor[u.1.toNat]? with
        | none => []
        | some candidate =>
          match net.add_link node candidate with
          | .error _ => []
          | .ok added =>
            (candidate, added.1) ::
              random_connect_node_log rng node original_size r (links_created + 1)
                (swap_pop possible_neighbor u.1.toNat) added.2 u.2

/-- Every one of the `r` uniform draws of the inner loop of
`Network::random_connect`, made from the generator state `g` on, lies in the
range `[0, (original_size - 1) - links_created]` that is requested for it. -/
def draws_in_range (rng : RandomNumbers σ V) (original_size : Int) : Nat → Nat → σ → Prop
  | 0, _, _ => True
  | r + 1, links_created, g =>
    (0 ≤ (rng.uniform_int 0 (to_int (to_size_t ((original_size - 1) - links_created))) g).1 ∧
      (rng.uniform_int 0 (to_int (to_size_t ((original_size - 1) - links_created))) g).1
        ≤ to_int (to_size_t ((original_size - 1) - links_created))) ∧
    draws_in_range rng original_size r (links_created + 1)
      (rng.uniform_int 0 (to_int (to_size_t ((original_size - 1) - links_created))) g).2

/-- The network and the generator state of a call of `random_connect` when
its outer loop reaches the node `v`: the state left by the loop over the
nodes `0, ..., v - 1`. -/
def state_before (rng : RandomNumbers σ V) (mean_deg : V) (net : Network V) (g : σ)
    (v : Nat) : Network V × σ :=
  (random_connect_loop rng mean_deg v 0 0 { net with links := LinkMap.empty } g).2

/-- The premises on the draws made for the node `node`, visited in the
network `net` and the generator state `g`: the Poisson draw `k` is a count
that is at most `size() - 1 - degree(node)`, and the `k` uniform draws that
follow lie in the ranges requested. -/
def draws_fit (rng : RandomNumbers σ V) (mean_deg : V) (node : Nat) (net : Network V)
    (g : σ) : Prop :=
  0 ≤ (rng.poisson mean_deg g).1 ∧
  (rng.poisson mean_deg g).1 ≤ (net.size : Int) - 1 - (net.links.count node : Int) ∧
  ∀ pool, net.possible_neighbors node = .ok pool →
    draws_in_range rng (to_int pool.length) (rng.poisson mean_deg g).1.toNat 0
      (rng.poisson mean_deg g).2

/-! ## Concrete inputs -/

/-- A generator that replays a fixed list of Poisson outputs and always
draws the lower end of the range from `uniform_int`. -/
def lowest : RandomNumbers (List Int) Int where
  normal := fun _ _ g => (0, g)
  poisson := fun _ g => (g.headD 0, g.tail)
  uniform_int := fun low _ g => (low, g)


/-- A generator that replays a fixed list of outputs, one per call whatever
the operation (and gives 0 once the list is used up). -/
def replay : RandomNumbers (List Int) Int where
  normal := fun _ _ g => (g.headD 0, g.tail)
  poisson := fun _ g => (g.headD 0, g.tail)
  uniform_int := fun _ _ g => (g.headD 0, g.tail)

/-- A network of `n` nodes of value 0 without any link. -/
def unlinked (n : Nat) : Network Int := ⟨List.replicate n 0, n, LinkMap.empty⟩

/-- A network of three nodes in which the nodes 0 and 1 are linked. -/
def linked01 : Network Int := ⟨[7, 8, 9], 3, (LinkMap.empty.insert 0 1).insert 1 0⟩

/-- A generator whose Poisson draws are all 1 and whose uniform draws are the
lower end of the range. -/
def ones : RandomNumbers Unit Int where
  normal := fun _ _ g => (0, g)
  poisson := fun _ g => (1, g)
  uniform_int := fun low _ g => (low, g)

/-- A network of `2^31` nodes of value 0 without any link. -/
def huge : Network Int := ⟨List.replicate 2147483648 0, 2147483648, LinkMap.empty⟩

/-- A network of three nodes whose node 0 keeps links to the nodes 1 and 5:
the state reached from six unlinked nodes by `add_link(0, 1)`,
`add_link(0, 5)` and `resize(3)`. -/
def stale : Network Int :=
  ⟨[0, 0, 0], 3, (((LinkMap.empty.insert 0 1).insert 1 0).insert 0 5).insert 5 0⟩

end NetworkSim

/-! # Theorems -/

namespace NetworkSim

open Network

variable {V σ : Type}

/-! ## The link container: lemmas -/

theorem insert_pair_perm (k v : Nat) :
    ∀ l : List (Nat × Nat), (insert_pair k v l).Perm ((k, v) :: l)
  | [] => by simp [insert_pair]
  | p :: ps => by
    unfold insert_pair
    split
    · exact List.Perm.refl _
    · exact ((insert_pair_perm k v ps).cons p).trans (List.Perm.swap _ _ _)

theorem mem_insert_pair (k v : Nat) (l : List (Nat × Nat)) (q : Nat × Nat) :
    q ∈ insert_pair k v l ↔ q = (k, v) ∨ q ∈ l := by
  rw [(insert_pair_perm k v l).mem_iff, List.mem_cons]

theorem takeWhile_le_eq_filter (n : Nat) :
    ∀ l : List (Nat × Nat), l.Pairwise (fun p q => p.1 ≤ q.1) → (∀ q ∈ l, n ≤ q.1) →
      l.takeWhile (fun p => decide (p.1 ≤ n)) = l.filter (fun p => decide (p.1 = n))
  | [], _, _ => rfl
  | p :: ps, hs, hge => by
    rw [List.pairwise_cons] at hs
    have hp : n ≤ p.1 := hge p (List.mem_cons_self _ _)
    by_cases h : p.1 = n
    · have ih := takeWhile_le_eq_filter n ps hs.2 (fun q hq => hge q (List.mem_cons_of_mem _ hq))
      simp [List.takeWhile_cons, List.filter_cons, h, ih]
    · have hlt : n < p.1 := lt_of_le_of_ne hp (Ne.symm h)
      have hnil : ps.filter (fun p => decide (p.1 = n)) = [] := by
        rw [List.filter_eq_nil_iff]
        intro q hq
        have := hs.1 q hq
        simp only [decide_eq_true_eq]
        omega
      simp [List.takeWhile_cons, List.filter_cons, h, hnil, Nat.not_le.2 hlt]

theorem equal_range_aux (n : Nat) :
    ∀ l : List (Nat × Nat), l.Pairwise (fun p q => p.1 ≤ q.1) →
      (l.dropWhile (fun p => decide (p.1 < n))).takeWhile (fun p => decide (p.1 ≤ n))
        = l.filter (fun p => decide (p.1 = n))
  | [], _ => rfl
  | p :: ps, hs => by
    by_cases h : p.1 < n
    · have ih := equal_range_aux n ps (List.pairwise_cons.1 hs).2
      have hne : ¬ p.1 = n := by omega
      simp [List.dropWhile_cons, List.filter_cons, h, hne, ih]
    · have hd : (p :: ps).dropWhile (fun p => decide (p.1 < n)) = p :: ps := by
        simp [List.dropWhile_cons, h]
      rw [hd]
      refine takeWhile_le_eq_filter n (p :: ps) hs ?_
      intro q hq
      rcases List.mem_cons.1 hq with rfl | hq
      · omega
      · have := (List.pairwise_cons.1 hs).1 q hq
        omega

/-- The range of a key holds exactly the stored pairs with that key, in
their stored order. -/
theorem LinkMap.equal_range_eq_filter (m : LinkMap) (n : Nat) :
    m.equal_range n = m.entries.filter (fun p => decide (p.1 = n)) :=
  equal_range_aux n m.entries m.sorted

theorem LinkMap.mem_equal_range_snd (m : LinkMap) (n b : Nat) :
    b ∈ (m.equal_range n).map Prod.snd ↔ (n, b) ∈ m.entries := by
  rw [LinkMap.equal_range_eq_filter, List.mem_map]
  constructor
  · rintro ⟨⟨x, y⟩, hq, rfl⟩
    rw [List.mem_filter] at hq
    have hx : x = n := by simpa using hq.2
    subst hx
    exact hq.1
  · intro h
    exact ⟨(n, b), List.mem_filter.2 ⟨h, by simp⟩, rfl⟩

theorem LinkMap.insert_entries_perm (m : LinkMap) (a b : Nat) :
    ((m.insert a b).insert b a).entries.Perm ((a, b) :: (b, a) :: m.entries) := by
  have h1 : ((m.insert a b).insert b a).entries.Perm ((b, a) :: (m.insert a b).entries) :=
    insert_pair_perm b a _
  have h2 : (m.insert a b).entries.Perm ((a, b) :: m.entries) := insert_pair_perm a b _
  exact (h1.trans (h2.cons _)).trans (List.Perm.swap _ _ _)

/-! ## `add_link` -/

theorem neighbors_of_lt (net : Network V) {n : Nat} (h : n < net.size) :
    net.neighbors n = .ok ((net.links.equal_range n).map Prod.snd) := by
  simp [neighbors, h]

/-- The three outcomes of `add_link`, none of which is an error. -/
theorem add_link_cases (net : Network V) (a b : Nat) :
    (a < net.size ∧ b < net.size ∧ a ≠ b ∧ (a, b) ∉ net.links.entries ∧
        net.add_link a b
          = .ok (true, { net with links := (net.links.insert a b).insert b a })) ∨
    (¬ (a < net.size ∧ b < net.size ∧ a ≠ b ∧ (a, b) ∉ net.links.entries) ∧
        net.add_link a b = .ok (false, net)) := by
  unfold add_link
  by_cases hr : a < net.size ∧ b < net.size
  · by_cases hab : a = b
    · right
      simp [hr, hab]
    · rw [if_pos hr, if_neg hab, neighbors_of_lt net hr.1]
      by_cases hm : (a, b) ∈ net.links.entries
      · right
        have : b ∈ (net.links.equal_range a).map Prod.snd :=
          (LinkMap.mem_equal_range_snd _ _ _).2 hm
        refine ⟨fun h => h.2.2.2 hm, ?_⟩
        simp only [this, not_true_eq_false, if_false]
      · left
        have : b ∉ (net.links.equal_range a).map Prod.snd :=
          fun h => hm ((LinkMap.mem_equal_range_snd _ _ _).1 h)
        refine ⟨hr.1, hr.2, hab, hm, ?_⟩
        simp only [this, not_false_eq_true, if_true]
  · right
    refine ⟨fun h => hr ⟨h.1, h.2.1⟩, ?_⟩
    rw [if_neg hr]

/-- C1. For every network and all indices `a`, `b`, `add_link(a, b)` raises
no error and returns true if and only if `a < size()`, `b < size()`,
`a != b` and `b` does not occur in `neighbors(a)`.  When it returns true the
link relation afterwards holds exactly the former pairs together with one
new `(a, b)` and one new `(b, a)` (values and node count being untouched);
when it returns false the network is the same as before. -/
theorem add_link_true_iff (net : Network V) (a b : Nat) :
    ∃ (r : Bool) (net1 : Network V), net.add_link a b = .ok (r, net1) ∧
      (r = true ↔ (a < net.size ∧ b < net.size ∧ a ≠ b ∧
        ∃ nb, net.neighbors a = .ok nb ∧ b ∉ nb)) ∧
      (r = true → net1.links.entries.Perm ((a, b) :: (b, a) :: net.links.entries) ∧
        net1.values = net.values ∧ net1.size = net.size) ∧
      (r = false → net1 = net) := by
  rcases add_link_cases net a b with ⟨ha, hb, hab, hm, h⟩ | ⟨hn, h⟩
  · refine ⟨true, _, h, ?_, ?_, ?_⟩
    · refine ⟨fun _ => ⟨ha, hb, hab, _, neighbors_of_lt net ha, ?_⟩, fun _ => rfl⟩
      exact fun hmem => hm ((LinkMap.mem_equal_range_snd _ _ _).1 hmem)
    · intro _
      exact ⟨LinkMap.insert_entries_perm _ _ _, rfl, rfl⟩
    · intro h1
      cases h1
  · refine ⟨false, _, h, ?_, ?_, fun _ => rfl⟩
    · constructor
      · intro h1
        cases h1
      · rintro ⟨ha, hb, hab, nb, hnb, hmem⟩
        exfalso
        apply hn
        refine ⟨ha, hb, hab, fun hm => hmem ?_⟩
        rw [neighbors_of_lt net ha] at hnb
        cases hnb
        exact (LinkMap.mem_equal_range_snd _ _ _).2 hm
    · intro h1
      cases h1

/-! ## The link invariant -/

theorem LinkInv_insert (net : Network V) (h : LinkInv net) (a b : Nat)
    (ha : a < net.size) (hb : b < net.size) (hab : a ≠ b) (hm : (a, b) ∉ net.links.entries) :
    LinkInv { net with links := (net.links.insert a b).insert b a } := by
  obtain ⟨hsym, hloop, hnd, hrange⟩ := h
  have hperm := LinkMap.insert_entries_perm net.links a b
  have hmem : ∀ q : Nat × Nat, q ∈ ((net.links.insert a b).insert b a).entries ↔
      q = (a, b) ∨ q = (b, a) ∨ q ∈ net.links.entries := by
    intro q
    rw [hperm.mem_iff, List.mem_cons, List.mem_cons]
  have hm2 : (b, a) ∉ net.links.entries := fun h2 => hm (hsym (b, a) h2)
  refine ⟨?_, ?_, ?_, ?_⟩
  · intro p hp
    show (p.2, p.1) ∈ ((net.links.insert a b).insert b a).entries
    have hp1 := (hmem p).1 hp
    rw [hmem]
    rcases hp1 with rfl | rfl | hp1
    · exact Or.inr (Or.inl rfl)
    · exact Or.inl rfl
    · exact Or.inr (Or.inr (hsym p hp1))
  · intro p hp
    rcases (hmem p).1 hp with rfl | rfl | hp1
    · exact hab
    · exact Ne.symm hab
    · exact hloop p hp1
  · show ((net.links.insert a b).insert b a).entries.Nodup
    rw [hperm.nodup_iff, List.nodup_cons, List.nodup_cons]
    refine ⟨?_, hm2, hnd⟩
    intro h1
    rcases List.mem_cons.1 h1 with h2 | h2
    · exact hab (congrArg Prod.fst h2)
    · exact hm h2
  · intro p hp
    rcases (hmem p).1 hp with rfl | rfl | hp1
    · exact ⟨ha, hb⟩
    · exact ⟨hb, ha⟩
    · exact hrange p hp1

theorem add_link_LinkInv (net : Network V) (h : LinkInv net) (a b : Nat)
    (r : Bool × Network V) (hr : net.add_link a b = .ok r) : LinkInv r.2 := by
  rcases add_link_cases net a b with ⟨ha, hb, hab, hm, h1⟩ | ⟨_, h1⟩
  · rw [h1] at hr
    cases hr
    exact LinkInv_insert net h a b ha hb hab hm
  · rw [h1] at hr
    cases hr
    exact h

theorem add_link_size (net : Network V) (a b : Nat)
    (r : Bool × Network V) (hr : net.add_link a b = .ok r) : r.2.size = net.size := by
  rcases add_link_cases net a b with ⟨_, _, _, _, h1⟩ | ⟨_, h1⟩ <;>
  · rw [h1] at hr
    cases hr
    rfl

/-- C2. `add_link` preserves the link invariant: if the link relation of a
network is symmetric, has no self-loop pair, has no pair occurring more than
once and only references node ids below `size()`, then any call
`add_link(a, b)` returns normally (with either result) and the relation
afterwards again satisfies the four conditions. -/
theorem add_link_preserves_invariant (net : Network V) (h : LinkInv net) (a b : Nat) :
    ∃ (r : Bool) (net1 : Network V), net.add_link a b = .ok (r, net1) ∧
      (∀ x y, (x, y) ∈ net1.links.entries ↔ (y, x) ∈ net1.links.entries) ∧
      (∀ x, (x, x) ∉ net1.links.entries) ∧
      net1.links.entries.Nodup ∧
      (∀ x y, (x, y) ∈ net1.links.entries → x < net1.size ∧ y < net1.size) ∧
      LinkInv net1 := by
  have hex : ∃ r : Bool × Network V, net.add_link a b = .ok r := by
    rcases add_link_cases net a b with ⟨_, _, _, _, h1⟩ | ⟨_, h1⟩
    · exact ⟨_, h1⟩
    · exact ⟨_, h1⟩
  obtain ⟨⟨r, net1⟩, hr⟩ := hex
  have hinv : LinkInv net1 := add_link_LinkInv net h a b _ hr
  refine ⟨r, net1, hr, ?_, ?_, ?_, ?_, hinv⟩
  · intro x y
    exact ⟨fun hx => hinv.1 (x, y) hx, fun hy => hinv.1 (y, x) hy⟩
  · intro x hx
    exact hinv.2.1 (x, x) hx rfl
  · exact hinv.2.2.1
  · intro x y hxy
    exact hinv.2.2.2 (x, y) hxy

/-- Witness of C2: the invariant holds of the three-node network linking 0
and 1, and is kept by `add_link(1, 2)`. -/
theorem add_link_preserves_invariant_witness :
    LinkInv linked01 ∧
    ∃ (r : Bool) (net1 : Network Int), linked01.add_link 1 2 = .ok (r, net1) ∧
      (∀ x y, (x, y) ∈ net1.links.entries ↔ (y, x) ∈ net1.links.entries) ∧
      (∀ x, (x, x) ∉ net1.links.entries) ∧
      net1.links.entries.Nodup ∧
      (∀ x y, (x, y) ∈ net1.links.entries → x < net1.size ∧ y < net1.size) ∧
      LinkInv net1 :=
  ⟨by decide, add_link_preserves_invariant linked01 (by decide) 1 2⟩

/-! ## `random_connect` keeps what `add_link` keeps -/

theorem random_connect_node_keeps (P : Network V → Prop)
    (hP : ∀ (net : Network V) (a b : Nat) (r : Bool × Network V),
      P net → net.add_link a b = .ok r → P r.2)
    (rng : RandomNumbers σ V) (node : Nat) (original_size : Int) :
    ∀ (r links_created : Nat) (pool : List Nat) (net : Network V) (g : σ), P net →
      P (random_connect_node rng node original_size r links_created pool net g).2.1
  | 0, _, _, _, _, h => h
  | r + 1, links_created, pool, net, g, h => by
    unfold random_connect_node
    simp only
    split
    · exact h
    · split
      · exact h
      · split
        · exact h
        · split
          · exact h
          · rename_i added hadd
            exact random_connect_node_keeps P hP rng node original_size r _ _ _ _
              (hP net node _ added h hadd)

theorem random_connect_visit_keeps (P : Network V → Prop)
    (hP : ∀ (net : Network V) (a b : Nat) (r : Bool × Network V),
      P net → net.add_link a b = .ok r → P r.2)
    (rng : RandomNumbers σ V) (mean_deg : V) (node : Nat) (net : Network V) (g : σ)
    (h : P net) : P (random_connect_visit rng mean_deg node net g).2.1 := by
  unfold random_connect_visit
  split
  · exact h
  · simp only
    split
    · exact h
    · split
      · split
        · exact h
        · split <;> exact random_connect_node_keeps P hP rng node _ _ _ _ _ _ h
      · exact h

theorem random_connect_loop_keeps (P : Network V → Prop)
    (hP : ∀ (net : Network V) (a b : Nat) (r : Bool × Network V),
      P net → net.add_link a b = .ok r → P r.2)
    (rng : RandomNumbers σ V) (mean_deg : V) :
    ∀ (r node total_links : Nat) (net : Network V) (g : σ), P net →
      P (random_connect_loop rng mean_deg r node total_links net g).2.1
  | 0, _, _, _, _, h => h
  | r + 1, node, total_links, net, g, h => by
    have hv := random_connect_visit_keeps P hP rng mean_deg node net g h
    unfold random_connect_loop
    simp only
    split
    · exact hv
    · exact random_connect_loop_keeps P hP rng mean_deg r _ _ _ _ hv

theorem random_connect_keeps (P : Network V → Prop)
    (hP : ∀ (net : Network V) (a b : Nat) (r : Bool × Network V),
      P net → net.add_link a b = .ok r → P r.2)
    (rng : RandomNumbers σ V) (net : Network V) (mean_deg : V) (g : σ)
    (h : P { net with links := LinkMap.empty }) :
    P (random_connect rng net mean_deg g).2.1 :=
  random_connect_loop_keeps P hP rng mean_deg _ _ _ _ _ h

theorem LinkInv_cleared (net : Network V) : LinkInv { net with links := LinkMap.empty } := by
  refine ⟨?_, ?_, List.nodup_nil, ?_⟩ <;>
  · intro p hp
    cases hp

theorem random_connect_LinkInv (rng : RandomNumbers σ V) (net : Network V) (mean_deg : V)
    (g : σ) : LinkInv (random_connect rng net mean_deg g).2.1 :=
  random_connect_keeps LinkInv (fun n a b r h hr => add_link_LinkInv n h a b r hr)
    rng net mean_deg g (LinkInv_cleared net)

theorem random_connect_size (rng : RandomNumbers σ V) (net : Network V) (mean_deg : V)
    (g : σ) : (random_connect rng net mean_deg g).2.1.size = net.size :=
  random_connect_keeps (fun n => n.size = net.size)
    (fun n a b r h hr => (add_link_size n a b r hr).trans h) rng net mean_deg g rfl

/-- C3. For every network (whatever its previous links), every mean degree,
every generator and every generator state, the link relation reached by
`random_connect(mean_degree)`, whether the call returned or stopped at a
fault, is symmetric, contains no self-loop pair, contains no pair more than
once, and references only node ids below `size()`. -/
theorem random_connect_invariant (rng : RandomNumbers σ V) (net : Network V) (mean_deg : V)
    (g : σ) :
    (∀ x y, (x, y) ∈ (random_connect rng net mean_deg g).2.1.links.entries ↔
      (y, x) ∈ (random_connect rng net mean_deg g).2.1.links.entries) ∧
    (∀ x, (x, x) ∉ (random_connect rng net mean_deg g).2.1.links.entries) ∧
    (random_connect rng net mean_deg g).2.1.links.entries.Nodup ∧
    (∀ x y, (x, y) ∈ (random_connect rng net mean_deg g).2.1.links.entries →
      x < net.size ∧ y < net.size) ∧
    (random_connect rng net mean_deg g).2.1.size = net.size := by
  have hinv := random_connect_LinkInv rng net mean_deg g
  have hsize := random_connect_size rng net mean_deg g
  refine ⟨?_, ?_, ?_, ?_, hsize⟩
  · intro x y
    exact ⟨fun hx => hinv.1 (x, y) hx, fun hy => hinv.1 (y, x) hy⟩
  · intro x hx
    exact hinv.2.1 (x, x) hx rfl
  · exact hinv.2.2.1
  · intro x y hxy
    rw [← hsize]
    exact hinv.2.2.2 (x, y) hxy

/-! ## Degrees under the link invariant -/

theorem degree_of_lt (net : Network V) {n : Nat} (h : n < net.size) :
    net.degree n = .ok (net.links.count n) := by
  simp [degree, h]

/-- Under the link invariant the neighbours of a node are pairwise distinct. -/
theorem LinkInv.nodup_neighbors {net : Network V} (h : LinkInv net) (n : Nat) :
    ((net.links.equal_range n).map Prod.snd).Nodup := by
  rw [LinkMap.equal_range_eq_filter]
  refine List.Nodup.map_on ?_ (h.2.2.1.filter _)
  rintro ⟨x1, y1⟩ hx ⟨x2, y2⟩ hy hxy
  have h1 : x1 = n := by simpa using (List.mem_filter.1 hx).2
  have h2 : x2 = n := by simpa using (List.mem_filter.1 hy).2
  simp only at hxy
  rw [h1, h2, hxy]

/-- Under the link invariant a node has at most `size() - 1` stored pairs. -/
theorem LinkInv.count_le {net : Network V} (h : LinkInv net) (n : Nat) (hn : n < net.size) :
    net.links.count n ≤ net.size - 1 := by
  have hsub : (net.links.equal_range n).map Prod.snd ⊆ (List.range net.size).erase n := by
    intro m hm
    have hmem : (n, m) ∈ net.links.entries := (LinkMap.mem_equal_range_snd _ _ _).1 hm
    have hne : n ≠ m := h.2.1 (n, m) hmem
    have hlt : m < net.size := (h.2.2.2 (n, m) hmem).2
    exact (List.mem_erase_of_ne (Ne.symm hne)).2 (List.mem_range.2 hlt)
  have hlen := (List.subperm_of_subset (h.nodup_neighbors n) hsub).length_le
  rw [List.length_map, List.length_erase_of_mem (List.mem_range.2 hn), List.length_range] at hlen
  exact hlen

/-- C4. For every network of size `n ≥ 1`, every mean degree, every generator
and every generator state, in the network reached by
`random_connect(mean_degree)` every node `i < n` has `degree(i) ≤ n - 1`. -/
theorem random_connect_degree_le (rng : RandomNumbers σ V) (net : Network V) (mean_deg : V)
    (g : σ) (_hn : 1 ≤ net.size) (i : Nat) (hi : i < net.size) :
    ∃ d, (random_connect rng net mean_deg g).2.1.degree i = .ok d ∧ d ≤ net.size - 1 := by
  have hinv := random_connect_LinkInv rng net mean_deg g
  have hsize := random_connect_size rng net mean_deg g
  have hi1 : i < (random_connect rng net mean_deg g).2.1.size := by
    rw [hsize]
    exact hi
  refine ⟨_, degree_of_lt _ hi1, ?_⟩
  have hle := hinv.count_le i hi1
  rw [hsize] at hle
  exact hle

/-- Witness of C4: three nodes, Poisson draws 2, 1, 0 with all uniform draws
equal to 0; the node 0 ends with degree 2. -/
theorem random_connect_degree_le_witness :
    1 ≤ (unlinked 3).size ∧ 0 < (unlinked 3).size ∧
    (random_connect replay (unlinked 3) 0 [2, 0, 0, 1, 0, 0]).1 = .ok 3 ∧
    (random_connect replay (unlinked 3) 0 [2, 0, 0, 1, 0, 0]).2.1.degree 0 = .ok 2 ∧
    ∃ d, (random_connect replay (unlinked 3) 0 [2, 0, 0, 1, 0, 0]).2.1.degree 0 = .ok d ∧
      d ≤ (unlinked 3).size - 1 :=
  ⟨by decide, by decide, by rfl, by rfl,
    random_connect_degree_le replay (unlinked 3) 0 [2, 0, 0, 1, 0, 0] (by decide) 0 (by decide)⟩

/-! ## The candidate pool of `random_connect` -/

/-- C5 (evaluation of the code where the claim fails). On a network of one
node without links and a Poisson draw of 1, `random_connect` computes
`number_of_links = min(1, 1 - 0) = 1` although `possible_neighbors(0)` is
empty: it asks for a uniform draw over `[0, -1]` and stops at the access
into the empty pool.  On three nodes and a Poisson draw of 5 it computes
`number_of_links = 3` for a pool of 2 candidates and stops at the third
access, after two links. -/
theorem random_connect_oversubscribes :
    (unlinked 1).degree 0 = .ok 0 ∧
    (unlinked 1).number_of_links 1 (to_int 0) = 1 ∧
    (unlinked 1).possible_neighbors 0 = .ok [] ∧
    to_int (to_size_t ((to_int ([] : List Nat).length - 1) - ((0 : Nat) : Int))) = -1 ∧
    (random_connect replay (unlinked 1) 0 [1, 0]).1 = .error .bad_index ∧
    (unlinked 3).number_of_links 5 (to_int 0) = 3 ∧
    (unlinked 3).possible_neighbors 0 = .ok [1, 2] ∧
    (random_connect replay (unlinked 3) 0 [5, 0, 0, 0]).1 = .error .bad_index ∧
    (random_connect replay (unlinked 3) 0 [5, 0, 0, 0]).2.1.links.entries
      = [(0, 1), (0, 2), (1, 0), (2, 0)] :=
  ⟨rfl, by decide, rfl, by decide, rfl, by decide, rfl, rfl, rfl⟩

/-! ## `possible_neighbors` -/

/-- The scan of `possible_neighbors` over distinct nodes appends, in scan
order, the nodes other than `n` that do not occur in the working copy. -/
theorem possible_neighbors_loop_eq (n : Nat) :
    ∀ (nodes neighbor acc : List Nat), nodes.Nodup →
      possible_neighbors_loop n nodes neighbor acc
        = acc ++ nodes.filter (fun m => decide (m ≠ n ∧ m ∉ neighbor))
  | [], _, acc, _ => by simp [possible_neighbors_loop]
  | node :: rest, neighbor, acc, hnd => by
    rw [List.nodup_cons] at hnd
    unfold possible_neighbors_loop
    by_cases hn : node ≠ n
    · by_cases hm : node ∈ neighbor
      · rw [if_pos hn, if_pos hm, possible_neighbors_loop_eq n rest _ acc hnd.2]
        have hfilter : rest.filter (fun m => decide (m ≠ n ∧ m ∉ neighbor.erase node))
            = rest.filter (fun m => decide (m ≠ n ∧ m ∉ neighbor)) := by
          apply List.filter_congr
          intro m hmr
          have hne : m ≠ node := fun h => hnd.1 (h ▸ hmr)
          simp [List.mem_erase_of_ne hne]
        rw [hfilter, List.filter_cons]
        simp [hm]
      · rw [if_pos hn, if_neg hm, possible_neighbors_loop_eq n rest _ _ hnd.2, List.filter_cons]
        simp [hn, hm]
    · rw [if_neg hn, possible_neighbors_loop_eq n rest _ _ hnd.2, List.filter_cons]
      simp [hn]

theorem possible_neighbors_of_lt (net : Network V) {n : Nat} (h : n < net.size) :
    net.possible_neighbors n = .ok ((List.range net.size).filter
      (fun m => decide (m ≠ n ∧ m ∉ (net.links.equal_range n).map Prod.snd))) := by
  unfold possible_neighbors
  rw [if_pos h, neighbors_of_lt net h]
  simp only
  rw [possible_neighbors_loop_eq n _ _ _ (List.nodup_range _), List.nil_append]

/-- C6. For every network, every node `n < size()` and every node
`m < size()` with `m != n`: both lists are returned, `m` occurs in exactly
one of `neighbors(n)` and `possible_neighbors(n)`, and `n` itself never
occurs in `possible_neighbors(n)`. -/
theorem neighbors_xor_possible_neighbors (net : Network V) (n m : Nat)
    (hn : n < net.size) (hm : m < net.size) (hmn : m ≠ n) :
    ∃ nb pn, net.neighbors n = .ok nb ∧ net.possible_neighbors n = .ok pn ∧
      ((m ∈ nb ∧ m ∉ pn) ∨ (m ∉ nb ∧ m ∈ pn)) ∧ n ∉ pn := by
  refine ⟨_, _, neighbors_of_lt net hn, possible_neighbors_of_lt net hn, ?_, ?_⟩
  · by_cases h : m ∈ (net.links.equal_range n).map Prod.snd
    · left
      refine ⟨h, fun hp => ?_⟩
      have := (List.mem_filter.1 hp).2
      simp only [decide_eq_true_eq] at this
      exact this.2 h
    · right
      refine ⟨h, List.mem_filter.2 ⟨List.mem_range.2 hm, ?_⟩⟩
      simp only [decide_eq_true_eq]
      exact ⟨hmn, h⟩
  · intro hp
    have := (List.mem_filter.1 hp).2
    simp only [decide_eq_true_eq] at this
    exact this.1 rfl

/-- Witness of C6: in the three-node network linking 0 and 1, the node 2 is a
possible neighbour of 0 and not a neighbour of it. -/
theorem neighbors_xor_possible_neighbors_witness :
    (0 < linked01.size ∧ 2 < linked01.size ∧ 2 ≠ 0) ∧
    linked01.neighbors 0 = .ok [1] ∧ linked01.possible_neighbors 0 = .ok [2] ∧
    ∃ nb pn, linked01.neighbors 0 = .ok nb ∧ linked01.possible_neighbors 0 = .ok pn ∧
      ((2 ∈ nb ∧ 2 ∉ pn) ∨ (2 ∉ nb ∧ 2 ∈ pn)) ∧ 0 ∉ pn :=
  ⟨by decide, rfl, rfl,
    neighbors_xor_possible_neighbors linked01 0 2 (by decide) (by decide) (by decide)⟩

/-! ## `resize` -/

theorem resize_loop_eq [Zero V] [One V] (rng : RandomNumbers σ V) :
    ∀ (r : Nat) (values : List V) (g : σ),
      (resize_loop rng r values g).1 = values ++ normal_draws rng r g
  | 0, values, g => by simp [resize_loop, normal_draws]
  | r + 1, values, g => by
    unfold resize_loop normal_draws
    simp only
    rw [resize_loop_eq rng r, List.append_assoc]
    rfl

theorem length_normal_draws [Zero V] [One V] (rng : RandomNumbers σ V) :
    ∀ (n : Nat) (g : σ), (normal_draws rng n g).length = n
  | 0, _ => rfl
  | n + 1, g => by
    unfold normal_draws
    rw [List.length_cons, length_normal_draws rng n]

/-- C7. For every `n` and every prior network state, after `resize(n)`:
`size()` equals `n`, the value sequence has length exactly `n` (so
`values.size() == node count`), and its entries are the `n` successive
`normal(0, 1)` draws of the generator in index order. -/
theorem resize_size_values [Zero V] [One V] (rng : RandomNumbers σ V) (net : Network V)
    (n : Nat) (g : σ) :
    (resize rng net n g).1.size = n ∧
    (resize rng net n g).1.values.length = n ∧
    (resize rng net n g).1.values.length = (resize rng net n g).1.size ∧
    (resize rng net n g).1.values = normal_draws rng n g := by
  have hv : (resize rng net n g).1.values = normal_draws rng n g := by
    show (resize_loop rng n [] g).1 = _
    rw [resize_loop_eq, List.nil_append]
  have hs : (resize rng net n g).1.size = n := rfl
  refine ⟨hs, ?_, ?_, hv⟩
  · rw [hv, length_normal_draws]
  · rw [hv, length_normal_draws, hs]

theorem degree_of_no_entries (net : Network V) (h : net.links.entries = []) {i : Nat}
    (hi : i < net.size) : net.degree i = .ok 0 ∧ net.neighbors i = .ok [] := by
  have he : net.links.equal_range i = [] := by
    rw [LinkMap.equal_range_eq_filter, h]
    rfl
  rw [degree_of_lt net hi, neighbors_of_lt net hi, LinkMap.count, he]
  exact ⟨rfl, rfl⟩

/-- C8 (counterexample). The three-node network in which 0 and 1 are linked
keeps this link through `resize(3)`: afterwards `degree(0)` is 1 and
`neighbors(0)` is `[1]`, so it is not the case that every node has degree 0.
After `resize(1)` the node 0 still has the neighbour 1, which is no longer a
node of the network. -/
theorem resize_keeps_old_links :
    (resize replay linked01 3 [4, 5, 6]).1.degree 0 = .ok 1 ∧
    (resize replay linked01 3 [4, 5, 6]).1.neighbors 0 = .ok [1] ∧
    (resize replay linked01 1 [4]).1.neighbors 0 = .ok [1] ∧
    ¬ (∀ i, i < 3 → (resize replay linked01 3 [4, 5, 6]).1.degree i = .ok 0 ∧
        (resize replay linked01 3 [4, 5, 6]).1.neighbors i = .ok []) := by
  refine ⟨rfl, rfl, rfl, fun h => ?_⟩
  have h0 := (h 0 (by decide)).1
  have h1 : (resize replay linked01 3 [4, 5, 6]).1.degree 0 = .ok 1 := rfl
  exact Nat.succ_ne_zero 0 (Except.ok.inj (h1.symm.trans h0))

/-- C8 (amended). For every `n` and every prior network state, `resize(n)`
leaves the link relation exactly as it was; hence, when the network held no
link before the call, after `resize(n)` the link relation is empty:
`degree(i) = 0` and `neighbors(i)` is empty for every `i < n`. -/
theorem resize_links [Zero V] [One V] (rng : RandomNumbers σ V) (net : Network V)
    (n : Nat) (g : σ) :
    (resize rng net n g).1.links = net.links ∧
    (net.links.entries = [] → ∀ i, i < n →
      (resize rng net n g).1.degree i = .ok 0 ∧ (resize rng net n g).1.neighbors i = .ok []) := by
  refine ⟨rfl, fun h i hi => ?_⟩
  exact degree_of_no_entries (resize rng net n g).1 h hi

/-- Witness of the amended C8: a network without links resized from 3 to 2
nodes. -/
theorem resize_links_witness :
    (unlinked 3).links.entries = [] ∧ 1 < 2 ∧
    (resize replay (unlinked 3) 2 [4, 5]).1.links = (unlinked 3).links ∧
    (resize replay (unlinked 3) 2 [4, 5]).1.degree 1 = .ok 0 ∧
    (resize replay (unlinked 3) 2 [4, 5]).1.neighbors 1 = .ok [] :=
  ⟨rfl, by decide, (resize_links replay (unlinked 3) 2 [4, 5]).1,
    (resize_links replay (unlinked 3) 2 [4, 5]).2 rfl 1 (by decide)⟩

/-! ## `set_values` -/

theorem set_values_loop_spec (new_values : List V) :
    ∀ (r node : Nat) (values : List V), node + r ≤ new_values.length →
      node + r ≤ values.length →
      ∃ vs, set_values_loop new_values r node values = .ok vs ∧
        vs.length = values.length ∧
        ∀ i, vs[i]? = if node ≤ i ∧ i < node + r then new_values[i]? else values[i]?
  | 0, node, values, _, _ => by
    refine ⟨values, rfl, rfl, fun i => ?_⟩
    rw [if_neg]
    omega
  | r + 1, node, values, h1, h2 => by
    have hn : node < new_values.length := by omega
    have hv : node < values.length := by omega
    obtain ⟨vs, hvs, hlen, hget⟩ := set_values_loop_spec new_values r (node + 1)
      (values.set node new_values[node]) (by omega) (by rw [List.length_set]; omega)
    refine ⟨vs, ?_, ?_, fun i => ?_⟩
    · unfold set_values_loop
      rw [List.getElem?_eq_getElem hn]
      simp only
      rw [if_pos hv]
      exact hvs
    · rw [hlen, List.length_set]
    · rw [hget i]
      by_cases hi : i = node
      · subst hi
        rw [if_neg (by omega), if_pos (by omega), List.getElem?_set_self hv,
          List.getElem?_eq_getElem hn]
      · by_cases hr : node + 1 ≤ i ∧ i < node + 1 + r
        · rw [if_pos hr, if_pos (by omega)]
        · rw [if_neg hr, if_neg (by omega), List.getElem?_set_ne (Ne.symm hi)]

/-- C9. For every network with `values.size() == size()` and every input
sequence `new_values`: `set_values(new_values)` returns
`c = min(|new_values|, size())`; afterwards `value(i) = new_values[i]` for
every `i < c`, `value(i)` is unchanged for every `c ≤ i < size()`, and the
node count, the length of the value sequence and the link relation are
unchanged. -/
theorem set_values_spec (net : Network V) (new_values : List V)
    (h : net.values.length = net.size) :
    ∃ net1, net.set_values new_values = .ok (min new_values.length net.size, net1) ∧
      (∀ i, i < min new_values.length net.size →
        ∃ x, new_values[i]? = some x ∧ net1.value i = .ok x) ∧
      (∀ i, min new_values.length net.size ≤ i → i < net.size →
        net1.value i = net.value i) ∧
      net1.size = net.size ∧ net1.values.length = net.values.length ∧
      net1.links = net.links := by
  obtain ⟨vs, hvs, hlen, hget⟩ := set_values_loop_spec new_values
    (min new_values.length net.size) 0 net.values (by omega) (by omega)
  refine ⟨{ net with values := vs }, ?_, ?_, ?_, rfl, hlen, rfl⟩
  · unfold set_values
    simp only
    rw [hvs]
  · intro i hi
    have hin : i < new_values.length := by omega
    have his : i < net.size := by omega
    refine ⟨new_values[i], List.getElem?_eq_getElem hin, ?_⟩
    have hg := hget i
    rw [if_pos (by omega), List.getElem?_eq_getElem hin] at hg
    show (if i < net.size then
        (match vs[i]? with
          | some v => Except.ok v
          | none => Except.error Fault.bad_index)
        else Except.error (Fault.out_of_range (out_of_range_message i))) = _
    rw [if_pos his, hg]
  · intro i hi _
    have hg := hget i
    rw [if_neg (by omega)] at hg
    show (if i < net.size then
        (match vs[i]? with
          | some v => Except.ok v
          | none => Except.error Fault.bad_index)
        else Except.error (Fault.out_of_range (out_of_range_message i))) = _
    rw [hg]
    rfl

/-- Witness of C9: `[1, 2, 3]` on five nodes returns 3 and leaves the nodes 3
and 4 untouched; `[1, 2, 3, 4, 5, 6]` on three nodes returns 3 and sets all
three nodes. -/
theorem set_values_spec_witness :
    (unlinked 5).values.length = (unlinked 5).size ∧
    ((unlinked 5).set_values [1, 2, 3]).map (fun r => (r.1, r.2.values))
      = .ok (3, [1, 2, 3, 0, 0]) ∧
    (linked01.set_values [1, 2, 3, 4, 5, 6]).map (fun r => (r.1, r.2.values))
      = .ok (3, [1, 2, 3]) ∧
    ∃ net1, (unlinked 5).set_values [1, 2, 3]
        = .ok (min [1, 2, 3].length (unlinked 5).size, net1) ∧
      (∀ i, i < min [1, 2, 3].length (unlinked 5).size →
        ∃ x, ([1, 2, 3] : List Int)[i]? = some x ∧ net1.value i = .ok x) ∧
      (∀ i, min [1, 2, 3].length (unlinked 5).size ≤ i → i < (unlinked 5).size →
        net1.value i = (unlinked 5).value i) ∧
      net1.size = (unlinked 5).size ∧ net1.values.length = (unlinked 5).values.length ∧
      net1.links = (unlinked 5).links :=
  ⟨rfl, rfl, rfl, set_values_spec (unlinked 5) [1, 2, 3] rfl⟩

/-! ## `sorted_values` -/

theorem sort_insert_perm (comp : V → V → Bool) (x : V) :
    ∀ l : List V, (sort_insert comp x l).Perm (x :: l)
  | [] => List.Perm.refl _
  | y :: ys => by
    unfold sort_insert
    split
    · exact ((sort_insert_perm comp x ys).cons y).trans (List.Perm.swap _ _ _)
    · exact List.Perm.refl _

theorem std_sort_perm (comp : V → V → Bool) : ∀ l : List V, (std_sort comp l).Perm l
  | [] => List.Perm.refl _
  | x :: xs => by
    unfold std_sort
    exact (sort_insert_perm comp x _).trans ((std_sort_perm comp xs).cons x)

theorem sort_insert_sorted [LinearOrder V] (x : V) :
    ∀ l : List V, l.Pairwise (fun a b => a ≥ b) →
      (sort_insert reverse_comparator x l).Pairwise (fun a b => a ≥ b)
  | [], _ => List.pairwise_singleton _ _
  | y :: ys, h => by
    rw [List.pairwise_cons] at h
    unfold sort_insert
    by_cases hc : reverse_comparator y x = true
    · rw [if_pos hc]
      have hyx : x < y := by simpa [reverse_comparator] using hc
      refine List.pairwise_cons.2 ⟨fun z hz => ?_, sort_insert_sorted x ys h.2⟩
      rcases List.mem_cons.1 ((sort_insert_perm _ x ys).mem_iff.1 hz) with rfl | hz
      · exact le_of_lt hyx
      · exact h.1 z hz
    · rw [if_neg hc]
      have hxy : y ≤ x := by simpa [reverse_comparator] using hc
      refine List.pairwise_cons.2 ⟨fun z hz => ?_, List.pairwise_cons.2 h⟩
      rcases List.mem_cons.1 hz with rfl | hz
      · exact hxy
      · exact le_trans (h.1 z hz) hxy

theorem std_sort_sorted [LinearOrder V] :
    ∀ l : List V, (std_sort reverse_comparator l).Pairwise (fun a b => a ≥ b)
  | [] => List.Pairwise.nil
  | x :: xs => by
    unfold std_sort
    exact sort_insert_sorted x _ (std_sort_sorted xs)

/-- C10. For every network whose values lie in a linearly ordered domain,
`sorted_values()` is a permutation of the current values (same multiset,
same length) and is non-increasing: every element is at least every later
one, in particular its successor. -/
theorem sorted_values_spec [LinearOrder V] (net : Network V) :
    net.sorted_values.Perm net.values ∧
    net.sorted_values.length = net.values.length ∧
    net.sorted_values.Pairwise (fun a b => a ≥ b) ∧
    (∀ i a b, net.sorted_values[i]? = some a → net.sorted_values[i + 1]? = some b → a ≥ b) := by
  have hperm : net.sorted_values.Perm net.values := std_sort_perm _ _
  have hsorted : net.sorted_values.Pairwise (fun a b => a ≥ b) := std_sort_sorted _
  refine ⟨hperm, hperm.length_eq, hsorted, fun i a b ha hb => ?_⟩
  obtain ⟨hi, rfl⟩ := List.getElem?_eq_some_iff.1 ha
  obtain ⟨hj, rfl⟩ := List.getElem?_eq_some_iff.1 hb
  exact List.pairwise_iff_getElem.1 hsorted i (i + 1) hi hj (Nat.lt_succ_self i)

/-! ## Out-of-range accesses -/

theorem out_of_range_message_eq (i : Nat) :
    out_of_range_message i
      = "the node " ++ Nat.repr i ++ " you try to access does not exist." := rfl

/-- C11. For every network and every index `i`, each of `value(i)`,
`degree(i)`, `neighbors(i)` and `possible_neighbors(i)` fails with the
out-of-range error if and only if `i >= size()`; the message of the error
contains the decimal representation of `i`; and for `i < size()` each of the
four returns normally (`value(i)` reads `values[i]`, which exists since
`values.size() == size()`). -/
theorem accessors_out_of_range (net : Network V) (i : Nat) :
    ((net.size ≤ i ↔ net.value i = .error (.out_of_range (out_of_range_message i))) ∧
      (net.size ≤ i ↔ net.degree i = .error (.out_of_range (out_of_range_message i))) ∧
      (net.size ≤ i ↔ net.neighbors i = .error (.out_of_range (out_of_range_message i))) ∧
      (net.size ≤ i ↔
        net.possible_neighbors i = .error (.out_of_range (out_of_range_message i)))) ∧
    (∃ before after : String, out_of_range_message i = before ++ Nat.repr i ++ after) ∧
    (i < net.size →
      (net.values.length = net.size → ∃ v, net.value i = .ok v) ∧
      (∃ d, net.degree i = .ok d) ∧ (∃ l, net.neighbors i = .ok l) ∧
      (∃ l, net.possible_neighbors i = .ok l)) := by
  refine ⟨⟨?_, ?_, ?_, ?_⟩, ⟨_, _, out_of_range_message_eq i⟩, fun hi => ⟨?_, ?_, ?_, ?_⟩⟩
  · by_cases h : i < net.size
    · refine ⟨fun h1 => absurd h (Nat.not_lt.2 h1), fun h1 => ?_⟩
      unfold value at h1
      rw [if_pos h] at h1
      split at h1 <;> cases h1
    · refine ⟨fun _ => ?_, fun _ => Nat.not_lt.1 h⟩
      unfold value
      rw [if_neg h]
  · by_cases h : i < net.size
    · refine ⟨fun h1 => absurd h (Nat.not_lt.2 h1), fun h1 => ?_⟩
      rw [degree_of_lt net h] at h1
      cases h1
    · refine ⟨fun _ => ?_, fun _ => Nat.not_lt.1 h⟩
      unfold degree
      rw [if_neg h]
  · by_cases h : i < net.size
    · refine ⟨fun h1 => absurd h (Nat.not_lt.2 h1), fun h1 => ?_⟩
      rw [neighbors_of_lt net h] at h1
      cases h1
    · refine ⟨fun _ => ?_, fun _ => Nat.not_lt.1 h⟩
      unfold neighbors
      rw [if_neg h]
  · by_cases h : i < net.size
    · refine ⟨fun h1 => absurd h (Nat.not_lt.2 h1), fun h1 => ?_⟩
      rw [possible_neighbors_of_lt net h] at h1
      cases h1
    · refine ⟨fun _ => ?_, fun _ => Nat.not_lt.1 h⟩
      unfold possible_neighbors
      rw [if_neg h]
  · intro hv
    have hlt : i < net.values.length := by omega
    refine ⟨net.values[i], ?_⟩
    unfold value
    rw [if_pos hi, List.getElem?_eq_getElem hlt]
  · exact ⟨_, degree_of_lt net hi⟩
  · exact ⟨_, neighbors_of_lt net hi⟩
  · exact ⟨_, possible_neighbors_of_lt net hi⟩

/-- Witness of C11: on a network of three nodes, `value(5)` and `degree(5)`
raise the error whose message names the node 5, and `value(1)` returns. -/
theorem accessors_out_of_range_witness :
    (unlinked 3).value 5
      = .error (.out_of_range "the node 5 you try to access does not exist.") ∧
    (unlinked 3).degree 5
      = .error (.out_of_range "the node 5 you try to access does not exist.") ∧
    (1 < (unlinked 3).size ∧ (unlinked 3).values.length = (unlinked 3).size) ∧
    ∃ v, (unlinked 3).value 1 = .ok v :=
  ⟨((accessors_out_of_range (unlinked 3) 5).1.1).1 (by decide),
    ((accessors_out_of_range (unlinked 3) 5).1.2.1).1 (by decide),
    by decide,
    ((accessors_out_of_range (unlinked 3) 1).2.2 (by decide)).1 rfl⟩

/-! ## The range of a key after an insertion -/

theorem filter_key_eq_nil_of_lt (n : Nat) (l : List (Nat × Nat))
    (h : ∀ q ∈ l, n < q.1) : l.filter (fun p => decide (p.1 = n)) = [] := by
  rw [List.filter_eq_nil_iff]
  intro q hq
  have := h q hq
  simp only [decide_eq_true_eq]
  omega

/-- In a key-ordered list, the inserted pair comes last among the pairs of
its key, and the pairs of the other keys are not affected. -/
theorem filter_insert_pair (k v n : Nat) :
    ∀ l : List (Nat × Nat), l.Pairwise (fun p q => p.1 ≤ q.1) →
      (insert_pair k v l).filter (fun p => decide (p.1 = n))
        = if k = n then l.filter (fun p => decide (p.1 = n)) ++ [(k, v)]
          else l.filter (fun p => decide (p.1 = n))
  | [], _ => by
    by_cases h : k = n <;> simp [insert_pair, List.filter_cons, h]
  | p :: ps, hs => by
    rw [List.pairwise_cons] at hs
    unfold insert_pair
    by_cases hk : k < p.1
    · rw [if_pos hk]
      by_cases h : k = n
      · have hnil : (p :: ps).filter (fun p => decide (p.1 = n)) = [] := by
          apply filter_key_eq_nil_of_lt
          intro q hq
          rcases List.mem_cons.1 hq with rfl | hq
          · omega
          · have := hs.1 q hq
            omega
        rw [if_pos h, List.filter_cons, hnil]
        simp [h]
      · rw [if_neg h, List.filter_cons]
        simp [h]
    · rw [if_neg hk, List.filter_cons, filter_insert_pair k v n ps hs.2, List.filter_cons]
      by_cases h : k = n <;> by_cases hp : p.1 = n <;> simp [h, hp]

theorem LinkMap.equal_range_insert (m : LinkMap) (k v n : Nat) :
    (m.insert k v).equal_range n
      = if k = n then m.equal_range n ++ [(k, v)] else m.equal_range n := by
  rw [LinkMap.equal_range_eq_filter, LinkMap.equal_range_eq_filter]
  exact filter_insert_pair k v n m.entries m.sorted

theorem LinkMap.equal_range_insert_both (m : LinkMap) (a b n : Nat) (hab : a ≠ b) :
    ((m.insert a b).insert b a).equal_range n
      = if n = a then m.equal_range n ++ [(a, b)]
        else if n = b then m.equal_range n ++ [(b, a)] else m.equal_range n := by
  rw [LinkMap.equal_range_insert, LinkMap.equal_range_insert]
  by_cases h1 : n = a
  · subst h1
    rw [if_neg (Ne.symm hab), if_pos rfl, if_pos rfl]
  · by_cases h2 : n = b
    · subst h2
      rw [if_pos rfl, if_neg (Ne.symm h1), if_neg h1, if_pos rfl]
    · rw [if_neg (Ne.symm h2), if_neg (Ne.symm h1), if_neg h1, if_neg h2]

theorem LinkMap.count_insert_both (m : LinkMap) (a b n : Nat) (hab : a ≠ b) :
    ((m.insert a b).insert b a).count n
      = if n = a ∨ n = b then m.count n + 1 else m.count n := by
  unfold LinkMap.count
  rw [LinkMap.equal_range_insert_both m a b n hab]
  by_cases h1 : n = a
  · rw [if_pos h1, if_pos (Or.inl h1), List.length_append]
    rfl
  · by_cases h2 : n = b
    · rw [if_neg h1, if_pos h2, if_pos (Or.inr h2), List.length_append]
      rfl
    · rw [if_neg h1, if_neg h2, if_neg (by tauto)]

/-! ## `add_link` twice, and `add_link` refused -/

theorem degree_with_links (net : Network V) (l : LinkMap) {n : Nat} (h : n < net.size) :
    ({ net with links := l } : Network V).degree n = .ok (l.count n) :=
  degree_of_lt _ h

theorem neighbors_with_links (net : Network V) (l : LinkMap) {n : Nat} (h : n < net.size) :
    ({ net with links := l } : Network V).neighbors n = .ok ((l.equal_range n).map Prod.snd) :=
  neighbors_of_lt _ h

/-- C12. For every network and all `a, b < size()` with `a != b` that are not
yet linked (`b` not in `neighbors(a)`): `add_link(a, b)` called twice in
succession returns true the first time and false the second time, and after
both calls `degree(a)` and `degree(b)` have each increased by exactly 1. -/
theorem add_link_twice (net : Network V) (a b : Nat) (ha : a < net.size) (hb : b < net.size)
    (hab : a ≠ b) (hnew : ∃ nb, net.neighbors a = .ok nb ∧ b ∉ nb) :
    ∃ (net1 net2 : Network V) (da db : Nat),
      net.add_link a b = .ok (true, net1) ∧ net1.add_link a b = .ok (false, net2) ∧
      net.degree a = .ok da ∧ net.degree b = .ok db ∧
      net2.degree a = .ok (da + 1) ∧ net2.degree b = .ok (db + 1) := by
  obtain ⟨nb, hnb, hmem⟩ := hnew
  rw [neighbors_of_lt net ha] at hnb
  cases hnb
  have hm : (a, b) ∉ net.links.entries :=
    fun h => hmem ((LinkMap.mem_equal_range_snd _ _ _).2 h)
  have h1 : net.add_link a b
      = .ok (true, { net with links := (net.links.insert a b).insert b a }) := by
    rcases add_link_cases net a b with ⟨_, _, _, _, h⟩ | ⟨hn, _⟩
    · exact h
    · exact absurd ⟨ha, hb, hab, hm⟩ hn
  have hin : (a, b) ∈ ((net.links.insert a b).insert b a).entries := by
    rw [(LinkMap.insert_entries_perm net.links a b).mem_iff]
    exact List.mem_cons_self _ _
  have h2 : ({ net with links := (net.links.insert a b).insert b a } : Network V).add_link a b
      = .ok (false, { net with links := (net.links.insert a b).insert b a }) := by
    rcases add_link_cases ({ net with links := (net.links.insert a b).insert b a } : Network V)
      a b with ⟨_, _, _, hm2, _⟩ | ⟨_, h⟩
    · exact absurd hin hm2
    · exact h
  refine ⟨_, _, _, _, h1, h2, degree_of_lt net ha, degree_of_lt net hb, ?_, ?_⟩
  · rw [degree_with_links net _ ha, LinkMap.count_insert_both _ _ _ _ hab, if_pos (Or.inl rfl)]
  · rw [degree_with_links net _ hb, LinkMap.count_insert_both _ _ _ _ hab, if_pos (Or.inr rfl)]

/-- Witness of C12: the nodes 1 and 2 of the three-node network linking 0
and 1. -/
theorem add_link_twice_witness :
    (1 < linked01.size ∧ 2 < linked01.size ∧ 1 ≠ 2) ∧
    linked01.neighbors 1 = .ok [0] ∧
    ∃ (net1 net2 : Network Int) (da db : Nat),
      linked01.add_link 1 2 = .ok (true, net1) ∧ net1.add_link 1 2 = .ok (false, net2) ∧
      linked01.degree 1 = .ok da ∧ linked01.degree 2 = .ok db ∧
      net2.degree 1 = .ok (da + 1) ∧ net2.degree 2 = .ok (db + 1) :=
  ⟨by decide, rfl,
    add_link_twice linked01 1 2 (by decide) (by decide) (by decide) ⟨[0], rfl, by decide⟩⟩

/-- C13. Whenever `add_link(a, b)` returns false the whole network state
(node count, values and link relation) is the same as before the call; it
returns false, without error, when an endpoint is out of range, when
`a == b`, and when `b` is already a neighbour of `a`; in particular
`add_link(a, a)` returns false and leaves `degree(a)` unchanged. -/
theorem add_link_false_unchanged (net : Network V) (a b : Nat) :
    (∀ net1, net.add_link a b = .ok (false, net1) → net1 = net) ∧
    ((¬ (a < net.size ∧ b < net.size) ∨ a = b ∨ ∃ nb, net.neighbors a = .ok nb ∧ b ∈ nb) →
      net.add_link a b = .ok (false, net)) ∧
    (net.add_link a a = .ok (false, net) ∧
      ∀ net1, net.add_link a a = .ok (false, net1) → net1.degree a = net.degree a) := by
  have hloop : net.add_link a a = .ok (false, net) := by
    rcases add_link_cases net a a with ⟨_, _, h, _⟩ | ⟨_, h⟩
    · exact absurd rfl h
    · exact h
  refine ⟨?_, ?_, hloop, ?_⟩
  · intro net1 h1
    rcases add_link_cases net a b with ⟨_, _, _, _, h⟩ | ⟨_, h⟩
    · rw [h] at h1
      cases h1
    · rw [h] at h1
      cases h1
      rfl
  · intro hc
    rcases add_link_cases net a b with ⟨ha, hb, hab, hm, _⟩ | ⟨_, h⟩
    · exfalso
      rcases hc with h1 | h1 | ⟨nb, hnb, hmem⟩
      · exact h1 ⟨ha, hb⟩
      · exact hab h1
      · rw [neighbors_of_lt net ha] at hnb
        cases hnb
        exact hm ((LinkMap.mem_equal_range_snd _ _ _).1 hmem)
    · exact h
  · intro net1 h1
    rw [hloop] at h1
    cases h1
    rfl

/-- Witness of C13: in the three-node network linking 0 and 1, `add_link`
is refused for the existing link, for a self-loop and for a node out of
range. -/
theorem add_link_false_unchanged_witness :
    linked01.add_link 0 1 = .ok (false, linked01) ∧
    linked01.add_link 2 2 = .ok (false, linked01) ∧
    linked01.add_link 0 3 = .ok (false, linked01) :=
  ⟨(add_link_false_unchanged linked01 0 1).2.1 (Or.inr (Or.inr ⟨[1], rfl, by decide⟩)),
    (add_link_false_unchanged linked01 2 2).2.1 (Or.inr (Or.inl rfl)),
    (add_link_false_unchanged linked01 0 3).2.1 (Or.inl (by decide))⟩

/-! ## `random_connect` when every Poisson draw is 0 -/

theorem to_int_bounds (n : Nat) : INT_MIN ≤ to_int n ∧ to_int n ≤ INT_MAX := by
  unfold to_int INT_MIN INT_MAX
  split <;> omega

theorem to_int_zero : to_int 0 = 0 := by decide

/-- The body of the outer loop for a node inside the network, with the
degree read from the container. -/
theorem random_connect_visit_of_lt (rng : RandomNumbers σ V) (mean_deg : V) (node : Nat)
    (net : Network V) (g : σ) (h : node < net.size) :
    random_connect_visit rng mean_deg node net g =
      if to_int net.size - to_int (net.links.count node) < INT_MIN ∨
          INT_MAX < to_int net.size - to_int (net.links.count node) then
        (.error .int_overflow, net, (rng.poisson mean_deg g).2)
      else
        if net.number_of_links (rng.poisson mean_deg g).1 (to_int (net.links.count node)) > 0 then
          match net.possible_neighbors node with
          | .error f => (.error f, net, (rng.poisson mean_deg g).2)
          | .ok possible_neighbor =>
            match (random_connect_node rng node (to_int possible_neighbor.length)
              (net.number_of_links (rng.poisson mean_deg g).1
                (to_int (net.links.count node))).toNat 0 possible_neighbor net
              (rng.poisson mean_deg g).2).1 with
            | .error f => (.error f,
                (random_connect_node rng node (to_int possible_neighbor.length)
                  (net.number_of_links (rng.poisson mean_deg g).1
                    (to_int (net.links.count node))).toNat 0 possible_neighbor net
                  (rng.poisson mean_deg g).2).2.1,
                (random_connect_node rng node (to_int possible_neighbor.length)
                  (net.number_of_links (rng.poisson mean_deg g).1
                    (to_int (net.links.count node))).toNat 0 possible_neighbor net
                  (rng.poisson mean_deg g).2).2.2)
            | .ok _ => (.ok (net.number_of_links (rng.poisson mean_deg g).1
                  (to_int (net.links.count node))).toNat,
                (random_connect_node rng node (to_int possible_neighbor.length)
                  (net.number_of_links (rng.poisson mean_deg g).1
                    (to_int (net.links.count node))).toNat 0 possible_neighbor net
                  (rng.poisson mean_deg g).2).2.1,
                (random_connect_node rng node (to_int possible_neighbor.length)
                  (net.number_of_links (rng.poisson mean_deg g).1
                    (to_int (net.links.count node))).toNat 0 possible_neighbor net
                  (rng.poisson mean_deg g).2).2.2)
        else (.ok 0, net, (rng.poisson mean_deg g).2) := by
  unfold random_connect_visit
  rw [degree_of_lt net h]

theorem random_connect_visit_zero (rng : RandomNumbers σ V) (mean_deg : V) (node : Nat)
    (net : Network V) (g : σ) (h : node < net.size) (hempty : net.links.entries = [])
    (hk : (rng.poisson mean_deg g).1 = 0) :
    random_connect_visit rng mean_deg node net g = (.ok 0, net, (rng.poisson mean_deg g).2) := by
  have hcount : net.links.count node = 0 := by
    have := (degree_of_no_entries net hempty h).1
    rw [degree_of_lt net h] at this
    exact Except.ok.inj this
  have hb := to_int_bounds net.size
  rw [random_connect_visit_of_lt rng mean_deg node net g h, hcount, to_int_zero, hk]
  have h1 : ¬ (to_int net.size - 0 < INT_MIN ∨ INT_MAX < to_int net.size - 0) := by
    rw [Int.sub_zero]
    omega
  have h2 : ¬ (net.number_of_links 0 0 > 0) := by
    unfold number_of_links
    have := Int.min_le_left 0 (to_int net.size - 0)
    omega
  rw [if_neg h1, if_neg h2]

theorem random_connect_loop_zero (rng : RandomNumbers σ V) (mean_deg : V) :
    ∀ (r node total_links : Nat) (net : Network V) (g : σ), net.links.entries = [] →
      node + r ≤ net.size →
      (∀ v, v < r → (rng.poisson mean_deg ((fun s => (rng.poisson mean_deg s).2)^[v] g)).1 = 0) →
      random_connect_loop rng mean_deg r node total_links net g
        = (.ok total_links, net, (fun s => (rng.poisson mean_deg s).2)^[r] g)
  | 0, _, _, _, _, _, _, _ => rfl
  | r + 1, node, total_links, net, g, hempty, hle, h0 => by
    have hv := random_connect_visit_zero rng mean_deg node net g (by omega) hempty
      (h0 0 (Nat.succ_pos r))
    unfold random_connect_loop
    simp only
    rw [hv]
    simp only
    have ih := random_connect_loop_zero rng mean_deg r (node + 1) total_links net
      (rng.poisson mean_deg g).2 hempty (by omega) (fun v hvr => by
        have := h0 (v + 1) (Nat.succ_lt_succ hvr)
        rwa [Function.iterate_succ_apply] at this)
    rw [Nat.add_zero total_links, ih, Function.iterate_succ_apply]

/-- C14. For every network (whatever its size and previous links) and every
mean degree, in particular 0: if every Poisson draw made by the generator
during the call is 0 (the draw for the node `v` is made in the generator
state reached after `v` Poisson draws), then `random_connect` returns 0 and
leaves the link relation empty: `degree(i) = 0` for every `i < size()`. -/
theorem random_connect_zero_draws (rng : RandomNumbers σ V) (net : Network V) (mean_deg : V)
    (g : σ)
    (h0 : ∀ v, v < net.size →
      (rng.poisson mean_deg ((fun s => (rng.poisson mean_deg s).2)^[v] g)).1 = 0) :
    (random_connect rng net mean_deg g).1 = .ok 0 ∧
    (random_connect rng net mean_deg g).2.1.links.entries = [] ∧
    ∀ i, i < net.size → (random_connect rng net mean_deg g).2.1.degree i = .ok 0 := by
  have h := random_connect_loop_zero rng mean_deg net.size 0 0
    { net with links := LinkMap.empty } g rfl (Nat.le_of_eq (Nat.zero_add _)) h0
  have hr : random_connect rng net mean_deg g
      = (.ok 0, { net with links := LinkMap.empty },
          (fun s => (rng.poisson mean_deg s).2)^[net.size] g) := h
  rw [hr]
  refine ⟨rfl, rfl, fun i hi => ?_⟩
  exact (degree_of_no_entries ({ net with links := LinkMap.empty } : Network V) rfl hi).1

/-- Witness of C14: the three-node network linking 0 and 1, with a generator
whose outputs are all 0. -/
theorem random_connect_zero_draws_witness :
    (random_connect replay linked01 0 []).1 = .ok 0 ∧
    (random_connect replay linked01 0 []).2.1.links.entries = [] ∧
    ∀ i, i < linked01.size → (random_connect replay linked01 0 []).2.1.degree i = .ok 0 :=
  random_connect_zero_draws replay linked01 0 [] (by
    intro v _
    have hfix : ∀ n : Nat, (fun s => (replay.poisson (0 : Int) s).2)^[n] ([] : List Int) = [] := by
      intro n
      induction n with
      | zero => rfl
      | succ n ih => rw [Function.iterate_succ_apply]; exact ih
    rw [hfix v]
    rfl)

/-! ## `random_connect` does not read the values and the old links -/

theorem add_link_values (net : Network V) (a b : Nat)
    (r : Bool × Network V) (hr : net.add_link a b = .ok r) : r.2.values = net.values := by
  rcases add_link_cases net a b with ⟨_, _, _, _, h1⟩ | ⟨_, h1⟩ <;>
  · rw [h1] at hr
    cases hr
    rfl

theorem add_link_with_values (net : Network V) (vs : List V) (a b : Nat) :
    ({ net with values := vs } : Network V).add_link a b =
      match net.add_link a b with
      | .error f => .error f
      | .ok r => .ok (r.1, { r.2 with values := vs }) := by
  rcases add_link_cases net a b with ⟨ha, hb, hab, hm, h1⟩ | ⟨hn, h1⟩
  · rcases add_link_cases ({ net with values := vs } : Network V) a b with
      ⟨_, _, _, _, h2⟩ | ⟨hn2, _⟩
    · rw [h1, h2]
    · exact absurd ⟨ha, hb, hab, hm⟩ hn2
  · rcases add_link_cases ({ net with values := vs } : Network V) a b with
      ⟨ha, hb, hab, hm, _⟩ | ⟨_, h2⟩
    · exact absurd ⟨ha, hb, hab, hm⟩ hn
    · rw [h1, h2]

theorem random_connect_node_with_values (rng : RandomNumbers σ V) (node : Nat)
    (original_size : Int) (vs : List V) :
    ∀ (r links_created : Nat) (pool : List Nat) (net : Network V) (g : σ),
      random_connect_node rng node original_size r links_created pool
          { net with values := vs } g
        = ((random_connect_node rng node original_size r links_created pool net g).1,
            { (random_connect_node rng node original_size r links_created pool net g).2.1
                with values := vs },
            (random_connect_node rng node original_size r links_created pool net g).2.2)
  | 0, _, _, _, _ => rfl
  | r + 1, links_created, pool, net, g => by
    unfold random_connect_node
    simp only
    by_cases h1 : original_size - 1 < INT_MIN
    · simp only [if_pos h1]
    · simp only [if_neg h1]
      by_cases h2 : (rng.uniform_int 0
          (to_int (to_size_t (original_size - 1 - links_created))) g).1 < 0
      · simp only [if_pos h2]
      · simp only [if_neg h2]
        cases hc : pool[(rng.uniform_int 0
            (to_int (to_size_t (original_size - 1 - links_created))) g).1.toNat]? with
        | none => rfl
        | some candidate =>
          simp only
          rw [add_link_with_values]
          cases hadd : net.add_link node candidate with
          | error f => rfl
          | ok added =>
            simp only
            exact random_connect_node_with_values rng node original_size vs r _ _ _ _

theorem random_connect_visit_with_values (rng : RandomNumbers σ V) (mean_deg : V) (node : Nat)
    (vs : List V) (net : Network V) (g : σ) :
    random_connect_visit rng mean_deg node { net with values := vs } g
      = ((random_connect_visit rng mean_deg node net g).1,
          { (random_connect_visit rng mean_deg node net g).2.1 with values := vs },
          (random_connect_visit rng mean_deg node net g).2.2) := by
  by_cases hn : node < net.size
  · rw [random_connect_visit_of_lt rng mean_deg node net g hn,
      random_connect_visit_of_lt rng mean_deg node { net with values := vs } g hn]
    show (if to_int net.size - to_int (net.links.count node) < INT_MIN ∨
          INT_MAX < to_int net.size - to_int (net.links.count node) then _ else _) = _
    by_cases h1 : to_int net.size - to_int (net.links.count node) < INT_MIN ∨
        INT_MAX < to_int net.size - to_int (net.links.count node)
    · simp only [if_pos h1]
    · simp only [if_neg h1]
      have hnum : ∀ k d : Int,
          ({ net with values := vs } : Network V).number_of_links k d = net.number_of_links k d :=
        fun _ _ => rfl
      simp only [hnum]
      by_cases h2 : net.number_of_links (rng.poisson mean_deg g).1
          (to_int (net.links.count node)) > 0
      · simp only [if_pos h2]
        have hpn : ({ net with values := vs } : Network V).possible_neighbors node
            = net.possible_neighbors node := rfl
        rw [hpn, possible_neighbors_of_lt net hn]
        simp only
        rw [random_connect_node_with_values]
        simp only
        split <;> rfl
      · simp only [if_neg h2]
  · have hd : net.degree node = .error (.out_of_range (out_of_range_message node)) := by
      unfold degree
      rw [if_neg hn]
    have hd2 : ({ net with values := vs } : Network V).degree node
        = .error (.out_of_range (out_of_range_message node)) := hd
    unfold random_connect_visit
    rw [hd, hd2]

theorem random_connect_loop_with_values (rng : RandomNumbers σ V) (mean_deg : V)
    (vs : List V) :
    ∀ (r node total_links : Nat) (net : Network V) (g : σ),
      random_connect_loop rng mean_deg r node total_links { net with values := vs } g
        = ((random_connect_loop rng mean_deg r node total_links net g).1,
            { (random_connect_loop rng mean_deg r node total_links net g).2.1
                with values := vs },
            (random_connect_loop rng mean_deg r node total_links net g).2.2)
  | 0, _, _, _, _ => rfl
  | r + 1, node, total_links, net, g => by
    unfold random_connect_loop
    simp only
    rw [random_connect_visit_with_values]
    simp only
    cases hv : (random_connect_visit rng mean_deg node net g).1 with
    | error f => rfl
    | ok added =>
      simp only
      exact random_connect_loop_with_values rng mean_deg vs r _ _ _ _

theorem random_connect_values (rng : RandomNumbers σ V) (net : Network V) (mean_deg : V)
    (g : σ) : (random_connect rng net mean_deg g).2.1.values = net.values :=
  random_connect_keeps (fun n => n.values = net.values)
    (fun n a b r h hr => (add_link_values n a b r hr).trans h) rng net mean_deg g rfl

/-- C15. `random_connect` is a full rebuild: for two networks with the same
node count and arbitrary, different link relations (and values), running
`random_connect(mean_degree)` with the same mean degree and the same
generator from the same generator state gives the same outcome (returned
value), the same resulting link relation and the same generator state; and
the call leaves the node count and all node values unchanged. -/
theorem random_connect_rebuild (rng : RandomNumbers σ V) (net1 net2 : Network V)
    (mean_deg : V) (g : σ) (hsize : net1.size = net2.size) :
    (random_connect rng net1 mean_deg g).1 = (random_connect rng net2 mean_deg g).1 ∧
    (random_connect rng net1 mean_deg g).2.1.links
      = (random_connect rng net2 mean_deg g).2.1.links ∧
    (random_connect rng net1 mean_deg g).2.2 = (random_connect rng net2 mean_deg g).2.2 ∧
    (random_connect rng net1 mean_deg g).2.1.size = net1.size ∧
    (random_connect rng net1 mean_deg g).2.1.values = net1.values := by
  have hstart : ({ net1 with links := LinkMap.empty } : Network V)
      = { ({ net2 with links := LinkMap.empty } : Network V) with values := net1.values } := by
    cases net1
    cases net2
    simp only [size] at hsize
    subst hsize
    rfl
  have hrun : random_connect rng net1 mean_deg g
      = ((random_connect rng net2 mean_deg g).1,
          { (random_connect rng net2 mean_deg g).2.1 with values := net1.values },
          (random_connect rng net2 mean_deg g).2.2) := by
    unfold random_connect
    rw [hstart, random_connect_loop_with_values]
    rw [hsize]
  refine ⟨?_, ?_, ?_, random_connect_size rng net1 mean_deg g,
    random_connect_values rng net1 mean_deg g⟩
  · rw [hrun]
  · rw [hrun]
  · rw [hrun]

/-- Witness of C15: three nodes without links and three nodes with 0 and 1
linked (and other values), the same outputs of the generator. -/
theorem random_connect_rebuild_witness :
    (unlinked 3).size = linked01.size ∧
    (random_connect replay (unlinked 3) 0 [2, 0, 0, 1, 0, 0]).2.1.links.entries
      = [(0, 1), (0, 2), (1, 0), (1, 2), (2, 0), (2, 1)] ∧
    (random_connect replay linked01 0 [2, 0, 0, 1, 0, 0]).2.1.links.entries
      = [(0, 1), (0, 2), (1, 0), (1, 2), (2, 0), (2, 1)] ∧
    (random_connect replay (unlinked 3) 0 [2, 0, 0, 1, 0, 0]).1
      = (random_connect replay linked01 0 [2, 0, 0, 1, 0, 0]).1 ∧
    (random_connect replay (unlinked 3) 0 [2, 0, 0, 1, 0, 0]).2.1.links
      = (random_connect replay linked01 0 [2, 0, 0, 1, 0, 0]).2.1.links ∧
    (random_connect replay (unlinked 3) 0 [2, 0, 0, 1, 0, 0]).2.2
      = (random_connect replay linked01 0 [2, 0, 0, 1, 0, 0]).2.2 ∧
    (random_connect replay (unlinked 3) 0 [2, 0, 0, 1, 0, 0]).2.1.size = (unlinked 3).size ∧
    (random_connect replay (unlinked 3) 0 [2, 0, 0, 1, 0, 0]).2.1.values
      = (unlinked 3).values :=
  ⟨rfl, rfl, rfl, random_connect_rebuild replay (unlinked 3) linked01 0 [2, 0, 0, 1, 0, 0] rfl⟩

/-! ## Degree and neighbour lists -/

theorem LinkMap.nodup_equal_range_snd (m : LinkMap) (h : m.entries.Nodup) (n : Nat) :
    ((m.equal_range n).map Prod.snd).Nodup := by
  rw [LinkMap.equal_range_eq_filter]
  refine List.Nodup.map_on ?_ (h.filter _)
  rintro ⟨x1, y1⟩ hx ⟨x2, y2⟩ hy hxy
  have h1 : x1 = n := by simpa using (List.mem_filter.1 hx).2
  have h2 : x2 = n := by simpa using (List.mem_filter.1 hy).2
  simp only at hxy
  rw [h1, h2, hxy]

/-- C16. For every network and every `i < size()`: `degree(i)` equals the
number of stored pairs whose first element is `i`, which equals the length
of `neighbors(i)` (the list of the nodes `m` with `(i, m)` stored); and when
the link relation has no duplicate pair and no self-loop, it equals the
number of distinct nodes `m != i` linked to `i`. -/
theorem degree_eq_neighbors_length (net : Network V) (i : Nat) (hi : i < net.size) :
    ∃ d nb, net.degree i = .ok d ∧ net.neighbors i = .ok nb ∧
      d = net.links.entries.countP (fun p => decide (p.1 = i)) ∧
      d = nb.length ∧
      (∀ m, m ∈ nb ↔ (i, m) ∈ net.links.entries) ∧
      (net.links.entries.Nodup → (∀ p ∈ net.links.entries, p.1 ≠ p.2) →
        d = (nb.toFinset.erase i).card) := by
  refine ⟨_, _, degree_of_lt net hi, neighbors_of_lt net hi, ?_, ?_, ?_, ?_⟩
  · rw [List.countP_eq_length_filter, ← LinkMap.equal_range_eq_filter]
    rfl
  · rw [List.length_map]
    rfl
  · exact fun m => LinkMap.mem_equal_range_snd _ _ _
  · intro hnd hloop
    have hni : i ∉ ((net.links.equal_range i).map Prod.snd).toFinset := by
      rw [List.mem_toFinset, LinkMap.mem_equal_range_snd]
      exact fun h => hloop (i, i) h rfl
    rw [Finset.erase_eq_of_not_mem hni,
      List.toFinset_card_of_nodup (LinkMap.nodup_equal_range_snd _ hnd i), List.length_map]
    rfl

/-- Witness of C16: the node 0 of the three-node network linking 0 and 1 has
degree 1. -/
theorem degree_eq_neighbors_length_witness :
    0 < linked01.size ∧ linked01.degree 0 = .ok 1 ∧ linked01.neighbors 0 = .ok [1] ∧
    ∃ d nb, linked01.degree 0 = .ok d ∧ linked01.neighbors 0 = .ok nb ∧
      d = linked01.links.entries.countP (fun p => decide (p.1 = 0)) ∧
      d = nb.length ∧
      (∀ m, m ∈ nb ↔ (0, m) ∈ linked01.links.entries) ∧
      (linked01.links.entries.Nodup → (∀ p ∈ linked01.links.entries, p.1 ≠ p.2) →
        d = (nb.toFinset.erase 0).card) :=
  ⟨by decide, rfl, rfl, degree_eq_neighbors_length linked01 0 (by decide)⟩

/-- C18. Effect of a successful `add_link` on the neighbour lists: whenever
`add_link(a, b)` returns true, afterwards `neighbors(a)` is the previous
`neighbors(a)` with `b` appended at the end, `neighbors(b)` is the previous
`neighbors(b)` with `a` appended at the end, `neighbors(c)` is unchanged for
every other node `c < size()`, and the node count and the values are
unchanged. -/
theorem add_link_appends (net net1 : Network V) (a b : Nat)
    (h : net.add_link a b = .ok (true, net1)) :
    ∃ na nb, net.neighbors a = .ok na ∧ net.neighbors b = .ok nb ∧
      net1.neighbors a = .ok (na ++ [b]) ∧ net1.neighbors b = .ok (nb ++ [a]) ∧
      (∀ c, c < net.size → c ≠ a → c ≠ b → net1.neighbors c = net.neighbors c) ∧
      net1.size = net.size ∧ net1.values = net.values := by
  rcases add_link_cases net a b with ⟨ha, hb, hab, _, h1⟩ | ⟨_, h1⟩
  · rw [h1] at h
    cases h
    refine ⟨_, _, neighbors_of_lt net ha, neighbors_of_lt net hb, ?_, ?_, ?_, rfl, rfl⟩
    · rw [neighbors_with_links net _ ha, LinkMap.equal_range_insert_both _ _ _ _ hab,
        if_pos rfl, List.map_append]
      rfl
    · rw [neighbors_with_links net _ hb, LinkMap.equal_range_insert_both _ _ _ _ hab,
        if_neg (Ne.symm hab), if_pos rfl, List.map_append]
      rfl
    · intro c hc hca hcb
      rw [neighbors_with_links net _ hc, LinkMap.equal_range_insert_both _ _ _ _ hab,
        if_neg hca, if_neg hcb, neighbors_of_lt net hc]
  · rw [h1] at h
    cases h

/-- Witness of C18: `add_link(0, 2)` in the three-node network linking 0 and
1 turns `neighbors(0)` from `[1]` into `[1, 2]`. -/
theorem add_link_appends_witness :
    (linked01.add_link 0 2).map (fun r => (r.1, r.2.neighbors 0, r.2.neighbors 2, r.2.neighbors 1))
      = .ok (true, .ok [1, 2], .ok [0], .ok [0]) ∧
    ∃ na nb, linked01.neighbors 0 = .ok na ∧ linked01.neighbors 2 = .ok nb ∧
      (⟨linked01.values, 3, ((linked01.links.insert 0 2).insert 2 0)⟩ : Network Int).neighbors 0
        = .ok (na ++ [2]) ∧
      (⟨linked01.values, 3, ((linked01.links.insert 0 2).insert 2 0)⟩ : Network Int).neighbors 2
        = .ok (nb ++ [0]) ∧
      (∀ c, c < linked01.size → c ≠ 0 → c ≠ 2 →
        (⟨linked01.values, 3, ((linked01.links.insert 0 2).insert 2 0)⟩ : Network Int).neighbors c
          = linked01.neighbors c) ∧
      (⟨linked01.values, 3, ((linked01.links.insert 0 2).insert 2 0)⟩ : Network Int).size
        = linked01.size ∧
      (⟨linked01.values, 3, ((linked01.links.insert 0 2).insert 2 0)⟩ : Network Int).values
        = linked01.values :=
  ⟨rfl, add_link_appends linked01 _ 0 2 rfl⟩

/-! ## `possible_neighbors` against its naive definition -/

/-- C17 (counterexample). From six unlinked nodes, `add_link(0, 1)`,
`add_link(0, 5)` and `resize(3)` lead to a network of three nodes in which
`neighbors(0)` is `[1, 5]`.  There `possible_neighbors(0)` is `[2]`, of
length 1, whereas `size() - 1` minus the number of distinct neighbours of 0
other than 0 is `3 - 1 - 2 = 0`. -/
theorem possible_neighbors_length_stale :
    (∃ n1 n2, (unlinked 6).add_link 0 1 = .ok (true, n1) ∧ n1.add_link 0 5 = .ok (true, n2) ∧
      (resize replay n2 3 []).1 = stale) ∧
    stale.size = 3 ∧ stale.neighbors 0 = .ok [1, 5] ∧ stale.possible_neighbors 0 = .ok [2] ∧
    ¬ (([2] : List Nat).length = stale.size - 1 - (([1, 5] : List Nat).toFinset.erase 0).card) :=
  ⟨⟨_, _, rfl, rfl, rfl⟩, rfl, rfl, rfl, by decide⟩

theorem possible_neighbors_length (size n : Nat) (nb : List Nat) (hn : n < size) :
    ((List.range size).filter (fun m => decide (m ≠ n ∧ m ∉ nb))).length
      = size - 1 - ((nb.toFinset.erase n).filter (fun m => m < size)).card := by
  have hnd : ((List.range size).filter (fun m => decide (m ≠ n ∧ m ∉ nb))).Nodup :=
    (List.nodup_range size).filter _
  have hset : ((List.range size).filter (fun m => decide (m ≠ n ∧ m ∉ nb))).toFinset
      = (Finset.range size).erase n \ (nb.toFinset.erase n).filter (fun m => m < size) := by
    ext m
    simp only [List.mem_toFinset, List.mem_filter, List.mem_range, decide_eq_true_eq,
      Finset.mem_sdiff, Finset.mem_erase, Finset.mem_range, Finset.mem_filter]
    tauto
  have hsub : (nb.toFinset.erase n).filter (fun m => m < size) ⊆ (Finset.range size).erase n := by
    intro m hm
    simp only [Finset.mem_filter, Finset.mem_erase, List.mem_toFinset] at hm
    simp only [Finset.mem_erase, Finset.mem_range]
    exact ⟨hm.1.1, hm.2⟩
  rw [← List.toFinset_card_of_nodup hnd, hset, Finset.card_sdiff hsub,
    Finset.card_erase_of_mem (Finset.mem_range.2 hn), Finset.card_range]

/-- C17 (amended). The erase-as-you-go scan in `possible_neighbors` is
equivalent to the naive definition: for every network (even one whose
neighbour list contains repeated entries) and every `n < size()`,
`possible_neighbors(n)` equals the list of all `m` in `0, ..., size()-1`, in
strictly ascending order, such that `m != n` and `m` does not occur in
`neighbors(n)`; consequently its length is `size() - 1` minus the number of
distinct neighbours of `n`, other than `n`, that are below `size()`, which is
the number of all distinct neighbours other than `n` when every neighbour of
`n` is below `size()`. -/
theorem possible_neighbors_naive (net : Network V) (n : Nat) (hn : n < net.size) :
    ∃ nb pn, net.neighbors n = .ok nb ∧ net.possible_neighbors n = .ok pn ∧
      pn = (List.range net.size).filter (fun m => decide (m ≠ n ∧ m ∉ nb)) ∧
      pn.Pairwise (fun x y => x < y) ∧
      (∀ m, m ∈ pn ↔ m < net.size ∧ m ≠ n ∧ m ∉ nb) ∧
      pn.length = net.size - 1 - ((nb.toFinset.erase n).filter (fun m => m < net.size)).card ∧
      ((∀ m ∈ nb, m < net.size) → pn.length = net.size - 1 - (nb.toFinset.erase n).card) := by
  refine ⟨_, _, neighbors_of_lt net hn, possible_neighbors_of_lt net hn, rfl, ?_, ?_, ?_, ?_⟩
  · exact (List.pairwise_lt_range net.size).filter _
  · intro m
    simp only [List.mem_filter, List.mem_range, decide_eq_true_eq]
  · exact possible_neighbors_length net.size n _ hn
  · intro hall
    rw [possible_neighbors_length net.size n _ hn]
    congr 2
    apply Finset.filter_true_of_mem
    intro m hm
    exact hall m (List.mem_toFinset.1 (Finset.mem_of_mem_erase hm))

/-- Witness of the amended C17: the node 0 of the network `stale` (one of its
two neighbours is below `size()`) and the node 0 of the three-node network
linking 0 and 1 (all neighbours below `size()`). -/
theorem possible_neighbors_naive_witness :
    0 < stale.size ∧
    (∃ nb pn, stale.neighbors 0 = .ok nb ∧ stale.possible_neighbors 0 = .ok pn ∧
      pn = (List.range stale.size).filter (fun m => decide (m ≠ 0 ∧ m ∉ nb)) ∧
      pn.Pairwise (fun x y => x < y) ∧
      (∀ m, m ∈ pn ↔ m < stale.size ∧ m ≠ 0 ∧ m ∉ nb) ∧
      pn.length = stale.size - 1 - ((nb.toFinset.erase 0).filter (fun m => m < stale.size)).card ∧
      ((∀ m ∈ nb, m < stale.size) → pn.length = stale.size - 1 - (nb.toFinset.erase 0).card)) ∧
    (∀ m ∈ [1], m < linked01.size) ∧
    linked01.possible_neighbors 0 = .ok [2] ∧
    ([2] : List Nat).length = linked01.size - 1 - (([1] : List Nat).toFinset.erase 0).card :=
  ⟨by decide, possible_neighbors_naive stale 0 (by decide), by decide, rfl, by decide⟩

/-! ## Sampling without replacement -/

theorem to_int_of_lt (n : Nat) (h : n < 2147483648) : to_int n = (n : Int) := by
  unfold to_int
  have h1 : n % 4294967296 = n := Nat.mod_eq_of_lt (by omega)
  rw [h1, if_pos h]

theorem to_int_to_size_t (x : Int) (h0 : 0 ≤ x) (h1 : x < 2147483648) :
    to_int (to_size_t x) = x := by
  have h2 : to_size_t x = x.toNat := by
    unfold to_size_t
    rw [Int.emod_eq_of_lt h0 (by omega)]
  rw [h2, to_int_of_lt _ (by omega)]
  omega

theorem set_perm_eraseIdx (a : Nat) :
    ∀ (l : List Nat) (i : Nat), i < l.length → (l.set i a).Perm (a :: l.eraseIdx i)
  | [], _, h => absurd h (Nat.not_lt_zero _)
  | x :: xs, 0, _ => List.Perm.refl _
  | x :: xs, i + 1, h => by
    rw [List.set_cons_succ, List.eraseIdx_cons_succ]
    exact ((set_perm_eraseIdx a xs i (Nat.lt_of_succ_lt_succ h)).cons x).trans
      (List.Perm.swap _ _ _)

/-- Swapping the element at a valid index with the last one and dropping the
last one leaves the other elements. -/
theorem swap_pop_perm (v : List Nat) (i : Nat) (h : i < v.length) :
    (swap_pop v i).Perm (v.eraseIdx i) := by
  rcases List.eq_nil_or_concat v with rfl | ⟨init, last, rfl⟩
  · exact absurd h (Nat.not_lt_zero _)
  · rw [List.concat_eq_append] at h ⊢
    unfold swap_pop
    rw [List.getLast?_concat]
    simp only
    by_cases hi : i < init.length
    · rw [List.set_append_left i last hi, List.dropLast_concat,
        List.eraseIdx_append_of_lt_length hi]
      exact (set_perm_eraseIdx last init i hi).trans (List.perm_append_singleton _ _).symm
    · have hlen : i = init.length := by
        rw [List.length_append, List.length_singleton] at h
        omega
      subst hlen
      rw [List.set_append_right _ _ (Nat.le_refl _), Nat.sub_self,
        List.eraseIdx_append_of_length_le (Nat.le_refl _), Nat.sub_self]
      simp

theorem swap_pop_spec (v : List Nat) (i c : Nat) (hc : v[i]? = some c) (hnd : v.Nodup) :
    (swap_pop v i).Nodup ∧ (swap_pop v i).length + 1 = v.length ∧
      ∀ x, x ∈ swap_pop v i ↔ x ≠ c ∧ x ∈ v := by
  obtain ⟨h, rfl⟩ := List.getElem?_eq_some_iff.1 hc
  have hp := swap_pop_perm v i h
  refine ⟨hp.nodup_iff.2 (hnd.sublist (List.eraseIdx_sublist v i)), ?_, fun x => ?_⟩
  · rw [hp.length_eq, List.length_eraseIdx_of_lt h]
    omega
  · rw [hp.mem_iff, ← hnd.erase_getElem i h, hnd.mem_erase_iff]

theorem random_connect_node_step (rng : RandomNumbers σ V) (node : Nat) (original_size : Int)
    (r links_created : Nat) (pool : List Nat) (net : Network V) (g : σ) (u : Int × σ) (c : Nat)
    (added : Bool × Network V) (h1 : ¬ original_size - 1 < INT_MIN)
    (hu : rng.uniform_int 0 (to_int (to_size_t (original_size - 1 - links_created))) g = u)
    (h2 : ¬ u.1 < 0) (hc : pool[u.1.toNat]? = some c)
    (hadd : net.add_link node c = .ok added) :
    random_connect_node rng node original_size (r + 1) links_created pool net g
      = random_connect_node rng node original_size r (links_created + 1)
          (swap_pop pool u.1.toNat) added.2 u.2 := by
  subst hu
  rw [random_connect_node]
  simp only [if_neg h1, if_neg h2, hc, hadd]

theorem random_connect_node_log_step (rng : RandomNumbers σ V) (node : Nat)
    (original_size : Int) (r links_created : Nat) (pool : List Nat) (net : Network V) (g : σ)
    (u : Int × σ) (c : Nat) (added : Bool × Network V) (h1 : ¬ original_size - 1 < INT_MIN)
    (hu : rng.uniform_int 0 (to_int (to_size_t (original_size - 1 - links_created))) g = u)
    (h2 : ¬ u.1 < 0) (hc : pool[u.1.toNat]? = some c)
    (hadd : net.add_link node c = .ok added) :
    random_connect_node_log rng node original_size (r + 1) links_created pool net g
      = (c, added.1) :: random_connect_node_log rng node original_size r (links_created + 1)
          (swap_pop pool u.1.toNat) added.2 u.2 := by
  subst hu
  rw [random_connect_node_log]
  simp only [if_neg h1, if_neg h2, hc, hadd]

/-- The inner loop on a pool of distinct nodes that are not linked to `node`,
with draws inside the requested ranges: every call of `add_link` is made on a
fresh candidate and returns true. -/
theorem random_connect_node_sampling (rng : RandomNumbers σ V) (node : Nat)
    (original_size : Int) :
    ∀ (r links_created : Nat) (pool : List Nat) (net : Network V) (g : σ),
      node < net.size → pool.Nodup →
      (∀ c ∈ pool, c < net.size ∧ c ≠ node ∧ (node, c) ∉ net.links.entries) →
      original_size = (pool.length : Int) + (links_created : Int) →
      original_size < 2147483648 → r ≤ pool.length →
      draws_in_range rng original_size r links_created g →
      (random_connect_node rng node original_size r links_created pool net g).1 = .ok () ∧
      (random_connect_node rng node original_size r links_created pool net g).2.1.size
        = net.size ∧
      (random_connect_node rng node original_size r links_created pool net g).2.1.links.entries.length
        = net.links.entries.length + 2 * r ∧
      (random_connect_node rng node original_size r links_created pool net g).2.1.links.count node
        = net.links.count node + r ∧
      (random_connect_node_log rng node original_size r links_created pool net g).length = r ∧
      ((random_connect_node_log rng node original_size r links_created pool net g).map
        Prod.fst).Nodup ∧
      ∀ e ∈ random_connect_node_log rng node original_size r links_created pool net g,
        e.2 = true ∧ e.1 ∈ pool
  | 0, _, _, _, _, _, _, _, _, _, _, _ =>
    ⟨rfl, rfl, rfl, rfl, rfl, List.nodup_nil, fun e he => by cases he⟩
  | r + 1, links_created, pool, net, g, hnode, hnd, hpool, hos, hlt, hr, hd => by
    have hd1 : (0 ≤ (rng.uniform_int 0
          (to_int (to_size_t ((original_size - 1) - links_created))) g).1 ∧
        (rng.uniform_int 0 (to_int (to_size_t ((original_size - 1) - links_created))) g).1
          ≤ to_int (to_size_t ((original_size - 1) - links_created))) ∧
        draws_in_range rng original_size r (links_created + 1)
          (rng.uniform_int 0 (to_int (to_size_t ((original_size - 1) - links_created))) g).2 :=
      hd
    have hhi : to_int (to_size_t ((original_size - 1) - links_created))
        = (pool.length : Int) - 1 := by
      rw [to_int_to_size_t _ (by omega) (by omega)]
      omega
    obtain ⟨u, hu⟩ : ∃ u, rng.uniform_int 0
        (to_int (to_size_t (original_size - 1 - links_created))) g = u := ⟨_, rfl⟩
    rw [hu] at hd1
    obtain ⟨⟨hu0, hu1⟩, hrest⟩ := hd1
    rw [hhi] at hu1
    have h1 : ¬ original_size - 1 < INT_MIN := by
      unfold INT_MIN
      omega
    have h2 : ¬ u.1 < 0 := by omega
    have hidx : u.1.toNat < pool.length := by omega
    obtain ⟨c, hc, hcmem⟩ : ∃ c, pool[u.1.toNat]? = some c ∧ c ∈ pool :=
      ⟨_, List.getElem?_eq_getElem hidx, List.getElem_mem hidx⟩
    obtain ⟨hclt, hcne, hcnew⟩ := hpool c hcmem
    obtain ⟨net1, hnet1⟩ : ∃ net1 : Network V,
        net1 = { net with links := (net.links.insert node c).insert c node } := ⟨_, rfl⟩
    have hadd : net.add_link node c = .ok (true, net1) := by
      rw [hnet1]
      rcases add_link_cases net node c with ⟨_, _, _, _, h⟩ | ⟨hn, _⟩
      · exact h
      · exact absurd ⟨hnode, hclt, Ne.symm hcne, hcnew⟩ hn
    obtain ⟨hnd1, hlen1, hmem1⟩ := swap_pop_spec pool _ c hc hnd
    have hperm := LinkMap.insert_entries_perm net.links node c
    have hsize1 : net1.size = net.size := by rw [hnet1]; rfl
    have hentries1 : net1.links.entries.Perm ((node, c) :: (c, node) :: net.links.entries) := by
      rw [hnet1]
      exact hperm
    have hcount1 : net1.links.count node = net.links.count node + 1 := by
      rw [hnet1]
      show ((net.links.insert node c).insert c node).count node = _
      rw [LinkMap.count_insert_both _ _ _ _ (Ne.symm hcne), if_pos (Or.inl rfl)]
    rw [random_connect_node_step rng node original_size r links_created pool net g u c _
        h1 hu h2 hc hadd,
      random_connect_node_log_step rng node original_size r links_created pool net g u c _
        h1 hu h2 hc hadd]
    obtain ⟨i1, i2, i3, i4, i5, i6, i7⟩ := random_connect_node_sampling rng node original_size r
      (links_created + 1) (swap_pop pool u.1.toNat) net1 u.2
      (by rw [hsize1]; exact hnode) hnd1
      (by
        intro x hxm
        obtain ⟨hne, hin⟩ := (hmem1 x).1 hxm
        obtain ⟨a1, a2, a3⟩ := hpool x hin
        refine ⟨by rw [hsize1]; exact a1, a2, fun hin2 => ?_⟩
        rcases List.mem_cons.1 (hentries1.mem_iff.1 hin2) with h | h
        · exact hne (congrArg Prod.snd h)
        · rcases List.mem_cons.1 h with h | h
          · exact hcne (congrArg Prod.fst h).symm
          · exact a3 h)
      (by push_cast; omega) hlt (by omega) hrest
    refine ⟨i1, i2.trans hsize1, ?_, ?_, ?_, ?_, ?_⟩
    · rw [i3, hentries1.length_eq, List.length_cons, List.length_cons]
      omega
    · rw [i4, hcount1]
      omega
    · rw [List.length_cons, i5]
    · rw [List.map_cons, List.nodup_cons]
      refine ⟨fun hin => ?_, i6⟩
      obtain ⟨e, he, hfst⟩ := List.mem_map.1 hin
      have := (hmem1 e.1).1 (i7 e he).2
      exact this.1 hfst
    · intro e he
      rcases List.mem_cons.1 he with rfl | he
      · exact ⟨rfl, hcmem⟩
      · exact ⟨(i7 e he).1, ((hmem1 e.1).1 (i7 e he).2).2⟩

theorem count_le_of_fit (net : Network V) (node : Nat) (hnode : node < net.size) :
    net.size - 1 - net.links.count node
      ≤ ((List.range net.size).filter
          (fun m => decide (m ≠ node ∧ m ∉ (net.links.equal_range node).map Prod.snd))).length := by
  rw [possible_neighbors_length net.size node _ hnode]
  have h1 : ((((net.links.equal_range node).map Prod.snd).toFinset.erase node).filter
      (fun m => m < net.size)).card ≤ ((net.links.equal_range node).map Prod.snd).toFinset.card :=
    Finset.card_le_card ((Finset.filter_subset _ _).trans (Finset.erase_subset _ _))
  have h2 := List.toFinset_card_le ((net.links.equal_range node).map Prod.snd)
  rw [List.length_map] at h2
  unfold LinkMap.count
  omega

/-- The visit of a node whose draws fit: the Poisson draw `k` is the number of
links added, every call of `add_link` is made on a fresh candidate and
returns true, and the degree of the node grows by `k`. -/
theorem random_connect_visit_sampling (rng : RandomNumbers σ V) (mean_deg : V) (node : Nat)
    (net : Network V) (g : σ) (hnode : node < net.size) (hsize : net.size < 2147483648)
    (hfit : draws_fit rng mean_deg node net g) :
    ∃ pool, net.possible_neighbors node = .ok pool ∧
      net.number_of_links (rng.poisson mean_deg g).1 (to_int (net.links.count node))
        = (rng.poisson mean_deg g).1 ∧
      (random_connect_visit rng mean_deg node net g).1
        = .ok (rng.poisson mean_deg g).1.toNat ∧
      (random_connect_visit rng mean_deg node net g).2.1.size = net.size ∧
      (random_connect_visit rng mean_deg node net g).2.1.links.entries.length
        = net.links.entries.length + 2 * (rng.poisson mean_deg g).1.toNat ∧
      (random_connect_visit rng mean_deg node net g).2.1.links.count node
        = net.links.count node + (rng.poisson mean_deg g).1.toNat ∧
      (random_connect_node_log rng node (to_int pool.length) (rng.poisson mean_deg g).1.toNat 0
        pool net (rng.poisson mean_deg g).2).length = (rng.poisson mean_deg g).1.toNat ∧
      ((random_connect_node_log rng node (to_int pool.length) (rng.poisson mean_deg g).1.toNat 0
        pool net (rng.poisson mean_deg g).2).map Prod.fst).Nodup ∧
      ∀ e ∈ random_connect_node_log rng node (to_int pool.length)
        (rng.poisson mean_deg g).1.toNat 0 pool net (rng.poisson mean_deg g).2, e.2 = true := by
  have hpn := possible_neighbors_of_lt net hnode
  obtain ⟨pool, hpool⟩ : ∃ pool, pool = (List.range net.size).filter
      (fun m => decide (m ≠ node ∧ m ∉ (net.links.equal_range node).map Prod.snd)) := ⟨_, rfl⟩
  rw [← hpool] at hpn
  obtain ⟨hk0, hk1, hdraws⟩ := hfit
  have hd := hdraws pool hpn
  obtain ⟨p, hp⟩ : ∃ p, rng.poisson mean_deg g = p := ⟨_, rfl⟩
  rw [hp] at hk0 hk1 hd
  have hlen1 : net.size - 1 - net.links.count node ≤ pool.length := by
    rw [hpool]
    exact count_le_of_fit net node hnode
  have hlen2 : pool.length ≤ net.size := by
    rw [hpool]
    exact (List.length_filter_le _ _).trans (Nat.le_of_eq (List.length_range _))
  have hts : to_int net.size = (net.size : Int) := to_int_of_lt _ hsize
  have htd : to_int (net.links.count node) = (net.links.count node : Int) :=
    to_int_of_lt _ (by omega)
  have htp : to_int pool.length = (pool.length : Int) := to_int_of_lt _ (by omega)
  have hov : ¬ (to_int net.size - to_int (net.links.count node) < INT_MIN ∨
      INT_MAX < to_int net.size - to_int (net.links.count node)) := by
    rw [hts, htd]
    unfold INT_MIN INT_MAX
    omega
  have hnum : net.number_of_links p.1 (to_int (net.links.count node)) = p.1 := by
    unfold number_of_links
    rw [hts, htd]
    exact min_eq_left (by omega)
  have hpool_inv : ∀ c ∈ pool, c < net.size ∧ c ≠ node ∧ (node, c) ∉ net.links.entries := by
    intro c hc
    rw [hpool, List.mem_filter, List.mem_range] at hc
    have h2 := hc.2
    simp only [decide_eq_true_eq] at h2
    exact ⟨hc.1, h2.1, fun h => h2.2 ((LinkMap.mem_equal_range_snd _ _ _).2 h)⟩
  have hnd : pool.Nodup := by
    rw [hpool]
    exact (List.nodup_range _).filter _
  obtain ⟨i1, i2, i3, i4, i5, i6, i7⟩ := random_connect_node_sampling rng node
    (to_int pool.length) p.1.toNat 0 pool net p.2 hnode hnd hpool_inv
    (by rw [htp]; simp) (by rw [htp]; omega) (by omega) hd
  refine ⟨pool, hpn, by rw [hp]; exact hnum, ?_⟩
  rw [random_connect_visit_of_lt rng mean_deg node net g hnode, hp, if_neg hov, hnum, hpn]
  by_cases hpos : p.1 > 0
  · rw [if_pos hpos]
    simp only
    rw [i1]
    exact ⟨rfl, i2, i3, i4, i5, i6, fun e he => (i7 e he).1⟩
  · rw [if_neg hpos]
    have hz : p.1.toNat = 0 := by omega
    rw [hz] at i5 i6 i7 ⊢
    exact ⟨rfl, rfl, rfl, rfl, i5, i6, fun e he => (i7 e he).1⟩

theorem random_connect_loop_step (rng : RandomNumbers σ V) (mean_deg : V)
    (r node total_links : Nat) (net : Network V) (g : σ) :
    random_connect_loop rng mean_deg (r + 1) node total_links net g =
      match (random_connect_visit rng mean_deg node net g).1 with
      | .error f => (.error f, (random_connect_visit rng mean_deg node net g).2)
      | .ok added =>
        random_connect_loop rng mean_deg r (node + 1) (total_links + added)
          (random_connect_visit rng mean_deg node net g).2.1
          (random_connect_visit rng mean_deg node net g).2.2 := by
  rw [random_connect_loop]

/-- One more node at the end of the outer loop. -/
theorem random_connect_loop_succ (rng : RandomNumbers σ V) (mean_deg : V) :
    ∀ (r node total_links : Nat) (net : Network V) (g : σ),
      random_connect_loop rng mean_deg (r + 1) node total_links net g =
        match (random_connect_loop rng mean_deg r node total_links net g).1 with
        | .error f => (.error f, (random_connect_loop rng mean_deg r node total_links net g).2)
        | .ok total =>
          match (random_connect_visit rng mean_deg (node + r)
            (random_connect_loop rng mean_deg r node total_links net g).2.1
            (random_connect_loop rng mean_deg r node total_links net g).2.2).1 with
          | .error f => (.error f, (random_connect_visit rng mean_deg (node + r)
              (random_connect_loop rng mean_deg r node total_links net g).2.1
              (random_connect_loop rng mean_deg r node total_links net g).2.2).2)
          | .ok added => (.ok (total + added), (random_connect_visit rng mean_deg (node + r)
              (random_connect_loop rng mean_deg r node total_links net g).2.1
              (random_connect_loop rng mean_deg r node total_links net g).2.2).2)
  | 0, node, total_links, net, g => by
    rw [random_connect_loop_step]
    have h0 : random_connect_loop rng mean_deg 0 node total_links net g
        = (.ok total_links, net, g) := rfl
    rw [h0]
    simp only [Nat.add_zero]
    cases hv : (random_connect_visit rng mean_deg node net g).1 with
    | error f => rfl
    | ok added => rfl
  | r + 1, node, total_links, net, g => by
    rw [random_connect_loop_step rng mean_deg (r + 1) node total_links net g,
      random_connect_loop_step rng mean_deg r node total_links net g]
    cases hv : (random_connect_visit rng mean_deg node net g).1 with
    | error f => rfl
    | ok added =>
      simp only
      rw [random_connect_loop_succ rng mean_deg r (node + 1), Nat.add_assoc node 1 r,
        Nat.add_comm 1 r]

theorem state_before_succ (rng : RandomNumbers σ V) (mean_deg : V) (net : Network V) (g : σ)
    (v total : Nat)
    (h : (random_connect_loop rng mean_deg v 0 0 { net with links := LinkMap.empty } g).1
      = .ok total) :
    random_connect_loop rng mean_deg (v + 1) 0 0 { net with links := LinkMap.empty } g =
      match (random_connect_visit rng mean_deg v (state_before rng mean_deg net g v).1
        (state_before rng mean_deg net g v).2).1 with
      | .error f => (.error f, (random_connect_visit rng mean_deg v
          (state_before rng mean_deg net g v).1 (state_before rng mean_deg net g v).2).2)
      | .ok added => (.ok (total + added), (random_connect_visit rng mean_deg v
          (state_before rng mean_deg net g v).1 (state_before rng mean_deg net g v).2).2) := by
  rw [random_connect_loop_succ, h, Nat.zero_add]
  rfl

/-- The outer loop over the first `v` nodes of a run whose draws fit: it
returns, the node count is kept and the relation holds two pairs for every
link counted. -/
theorem random_connect_prefix (rng : RandomNumbers σ V) (mean_deg : V) (net : Network V)
    (g : σ) (hsize : net.size < 2147483648)
    (hfit : ∀ v, v < net.size → draws_fit rng mean_deg v (state_before rng mean_deg net g v).1
      (state_before rng mean_deg net g v).2) :
    ∀ v, v ≤ net.size →
      ∃ total, (random_connect_loop rng mean_deg v 0 0
          { net with links := LinkMap.empty } g).1 = .ok total ∧
        (state_before rng mean_deg net g v).1.size = net.size ∧
        (state_before rng mean_deg net g v).1.links.entries.length = 2 * total
  | 0, _ => ⟨0, rfl, rfl, rfl⟩
  | v + 1, hv => by
    obtain ⟨total, h1, h2, h3⟩ := random_connect_prefix rng mean_deg net g hsize hfit v
      (Nat.le_of_succ_le hv)
    obtain ⟨pool, _, _, j1, j2, j3, _⟩ := random_connect_visit_sampling rng mean_deg v
      (state_before rng mean_deg net g v).1 (state_before rng mean_deg net g v).2
      (by rw [h2]; exact hv) (by rw [h2]; exact hsize) (hfit v hv)
    have hstep := state_before_succ rng mean_deg net g v total h1
    rw [j1] at hstep
    have hst : state_before rng mean_deg net g (v + 1)
        = (random_connect_visit rng mean_deg v (state_before rng mean_deg net g v).1
            (state_before rng mean_deg net g v).2).2 := by
      unfold state_before
      rw [hstep]
      rfl
    refine ⟨_, by rw [hstep], ?_, ?_⟩
    · rw [hst, j2, h2]
    · rw [hst, j3, h3]
      omega

/-- C19 (amended). Sampling without replacement makes every insertion
succeed.  On a network of at most `INT_MAX` nodes, take a run of
`random_connect` in which, for every node `v`, the Poisson draw `k_v` is a
count (`k_v ≥ 0`) that is at most `size() - 1 - d_v` (`d_v` the degree of `v`
when it is processed) and every uniform draw lies in its requested range.
Then the call returns a total that is exactly half the number of pairs
stored in the link relation, and for every node `v`: `number_of_links` is
`k_v`, the calls of `add_link` made for `v` are `k_v` in number, their
candidates are pairwise distinct, every one of them returns true, and the
degree of `v` immediately after it is processed is `d_v + k_v`. -/
theorem random_connect_sampling (rng : RandomNumbers σ V) (net : Network V) (mean_deg : V)
    (g : σ) (hsize : (net.size : Int) ≤ INT_MAX)
    (hfit : ∀ v, v < net.size → draws_fit rng mean_deg v (state_before rng mean_deg net g v).1
      (state_before rng mean_deg net g v).2) :
    (∃ total, (random_connect rng net mean_deg g).1 = .ok total ∧
      (random_connect rng net mean_deg g).2.1.links.entries.length = 2 * total) ∧
    ∀ v, v < net.size →
      ∃ pool d, (state_before rng mean_deg net g v).1.possible_neighbors v = .ok pool ∧
        (state_before rng mean_deg net g v).1.degree v = .ok d ∧
        (state_before rng mean_deg net g v).1.number_of_links
            (rng.poisson mean_deg (state_before rng mean_deg net g v).2).1 (to_int d)
          = (rng.poisson mean_deg (state_before rng mean_deg net g v).2).1 ∧
        (random_connect_node_log rng v (to_int pool.length)
          (rng.poisson mean_deg (state_before rng mean_deg net g v).2).1.toNat 0 pool
          (state_before rng mean_deg net g v).1
          (rng.poisson mean_deg (state_before rng mean_deg net g v).2).2).length
          = (rng.poisson mean_deg (state_before rng mean_deg net g v).2).1.toNat ∧
        ((random_connect_node_log rng v (to_int pool.length)
          (rng.poisson mean_deg (state_before rng mean_deg net g v).2).1.toNat 0 pool
          (state_before rng mean_deg net g v).1
          (rng.poisson mean_deg (state_before rng mean_deg net g v).2).2).map Prod.fst).Nodup ∧
        (∀ e ∈ random_connect_node_log rng v (to_int pool.length)
          (rng.poisson mean_deg (state_before rng mean_deg net g v).2).1.toNat 0 pool
          (state_before rng mean_deg net g v).1
          (rng.poisson mean_deg (state_before rng mean_deg net g v).2).2, e.2 = true) ∧
        (state_before rng mean_deg net g (v + 1)).1.degree v
          = .ok (d + (rng.poisson mean_deg (state_before rng mean_deg net g v).2).1.toNat) := by
  have hlt : net.size < 2147483648 := by
    unfold INT_MAX at hsize
    omega
  have hpre := random_connect_prefix rng mean_deg net g hlt hfit
  refine ⟨?_, fun v hv => ?_⟩
  · obtain ⟨total, h1, _, h3⟩ := hpre net.size (Nat.le_refl _)
    exact ⟨total, h1, h3⟩
  · obtain ⟨total, h1, h2, _⟩ := hpre v (Nat.le_of_lt hv)
    have hv1 : v < (state_before rng mean_deg net g v).1.size := by rw [h2]; exact hv
    obtain ⟨pool, hpn, j0, j1, j2, _, j4, j5, j6, j7⟩ := random_connect_visit_sampling rng mean_deg v
      (state_before rng mean_deg net g v).1 (state_before rng mean_deg net g v).2
      hv1 (by rw [h2]; exact hlt) (hfit v hv)
    have hstep := state_before_succ rng mean_deg net g v total h1
    rw [j1] at hstep
    have hst : state_before rng mean_deg net g (v + 1)
        = (random_connect_visit rng mean_deg v (state_before rng mean_deg net g v).1
            (state_before rng mean_deg net g v).2).2 := by
      unfold state_before
      rw [hstep]
      rfl
    refine ⟨pool, _, hpn, degree_of_lt _ hv1, j0, j5, j6, j7, ?_⟩
    rw [hst, degree_of_lt _ (by rw [j2]; exact hv1), j4]

/-- Witness of the amended C19: three nodes without links, Poisson draws 1, 1
and 0, every uniform draw at the lower end of its range.  The run links 0
with 1 and 1 with 2 and returns 2, half of the four pairs stored. -/
theorem random_connect_sampling_witness :
    ((unlinked 3).size : Int) ≤ INT_MAX ∧
    (random_connect lowest (unlinked 3) 0 [1, 1, 0]).1 = .ok 2 ∧
    (random_connect lowest (unlinked 3) 0 [1, 1, 0]).2.1.links.entries
      = [(0, 1), (1, 0), (1, 2), (2, 1)] ∧
    random_connect_node_log lowest 1 (to_int 1) 1 0 [2]
      (state_before lowest 0 (unlinked 3) [1, 1, 0] 1).1 [0] = [(2, true)] ∧
    (∃ total, (random_connect lowest (unlinked 3) 0 [1, 1, 0]).1 = .ok total ∧
      (random_connect lowest (unlinked 3) 0 [1, 1, 0]).2.1.links.entries.length = 2 * total) := by
  have hfit : ∀ v, v < (unlinked 3).size →
      draws_fit lowest 0 v (state_before lowest 0 (unlinked 3) [1, 1, 0] v).1
        (state_before lowest 0 (unlinked 3) [1, 1, 0] v).2 := by
    intro v hv
    have hv3 : v < 3 := hv
    interval_cases v
    · refine ⟨by decide, by decide, fun pool hp => ?_⟩
      have hpool : pool = [1, 2] := (Except.ok.inj (hp : Except.ok [1, 2] = Except.ok pool)).symm
      subst hpool
      show (0 ≤ (0 : Int) ∧ (0 : Int) ≤ 1) ∧ True
      decide
    · refine ⟨by decide, by decide, fun pool hp => ?_⟩
      have hpool : pool = [2] := (Except.ok.inj (hp : Except.ok [2] = Except.ok pool)).symm
      subst hpool
      show (0 ≤ (0 : Int) ∧ (0 : Int) ≤ 0) ∧ True
      decide
    · refine ⟨by decide, by decide, fun pool _ => ?_⟩
      exact trivial
  exact ⟨by decide, rfl, rfl, rfl,
    (random_connect_sampling lowest (unlinked 3) 0 [1, 1, 0] (by decide) hfit).1⟩

theorem huge_visit (v : Nat) (hv : v < huge.size) :
    random_connect_visit ones 0 v huge () = (.ok 0, huge, ()) := by
  have hcount : huge.links.count v = 0 := by
    have := (degree_of_no_entries huge rfl hv).1
    rw [degree_of_lt huge hv] at this
    exact Except.ok.inj this
  have hov : ¬ (to_int huge.size - to_int 0 < INT_MIN ∨ INT_MAX < to_int huge.size - to_int 0) := by
    decide
  have hnum : ¬ (huge.number_of_links (ones.poisson (0 : Int) ()).1 (to_int 0) > 0) := by
    decide
  rw [random_connect_visit_of_lt ones 0 v huge () hv, hcount, if_neg hov, if_neg hnum]

theorem huge_loop : ∀ v, v ≤ huge.size →
    random_connect_loop ones 0 v 0 0 { huge with links := LinkMap.empty } () = (.ok 0, huge, ())
  | 0, _ => rfl
  | v + 1, hv => by
    rw [random_connect_loop_succ, huge_loop v (Nat.le_of_succ_le hv)]
    simp only [Nat.zero_add]
    rw [huge_visit v hv]

theorem huge_state (v : Nat) (hv : v ≤ huge.size) : state_before ones 0 huge () v = (huge, ()) := by
  unfold state_before
  rw [huge_loop v hv]

/-- C19 (counterexample). On a network of `2^31` nodes without links,
`int(size())` is `INT_MIN`.  With every Poisson draw equal to 1 the premises
of the claim hold at every node (`1 ≤ size() - 1 - 0`, and no uniform draw
falls outside its range), but `number_of_links = min(1, INT_MIN - 0)` is
negative, so no link is added: the degree of the node 0 after it is
processed is 0 and not `d_0 + k_0 = 1`. -/
theorem random_connect_sampling_wraps :
    huge.size = 2147483648 ∧ to_int huge.size = INT_MIN ∧
    (∀ v, v < huge.size → draws_fit ones 0 v (state_before ones 0 huge () v).1
      (state_before ones 0 huge () v).2) ∧
    (state_before ones 0 huge () 0).1.degree 0 = .ok 0 ∧
    (ones.poisson (0 : Int) (state_before ones 0 huge () 0).2).1 = 1 ∧
    (state_before ones 0 huge () 1).1.degree 0 = .ok 0 ∧
    ¬ ((state_before ones 0 huge () 1).1.degree 0
        = .ok (0 + (ones.poisson (0 : Int) (state_before ones 0 huge () 0).2).1.toNat)) := by
  have hdeg : ∀ v, v ≤ huge.size → (state_before ones 0 huge () v).1.degree 0 = .ok 0 := by
    intro v hv
    rw [huge_state v hv]
    exact (degree_of_no_entries huge rfl (by decide)).1
  refine ⟨rfl, by decide, fun v hv => ?_, hdeg 0 (by decide), rfl, hdeg 1 (by decide), fun h => ?_⟩
  · rw [huge_state v (Nat.le_of_lt hv)]
    have hcount : huge.links.count v = 0 := by
      have := (degree_of_no_entries huge rfl hv).1
      rw [degree_of_lt huge hv] at this
      exact Except.ok.inj this
    refine ⟨by decide, ?_, fun pool hp => ?_⟩
    · show (1 : Int) ≤ ((2147483648 : Nat) : Int) - 1 - (huge.links.count v : Int)
      rw [hcount]
      decide
    · have hlen : pool.length = 2147483647 := by
        rw [possible_neighbors_of_lt huge hv] at hp
        have hp1 := Except.ok.inj hp
        rw [← hp1, possible_neighbors_length huge.size v _ hv]
        have hnb : huge.links.equal_range v = [] := by
          rw [LinkMap.equal_range_eq_filter]
          rfl
        rw [hnb]
        rfl
      rw [hlen]
      show (0 ≤ (0 : Int) ∧ (0 : Int) ≤ to_int (to_size_t (to_int 2147483647 - 1 - ((0 : Nat) : Int)))) ∧
        True
      decide
  · rw [hdeg 1 (by decide)] at h
    exact absurd (Except.ok.inj h) (by decide)

end NetworkSim
